import Mathlib

/-!
Verification of the fix-viewer core: the Handle codec (src/handle.rs) and the
two revisions of the ancestor graph (src/graph/ancestors.rs and src/graph.rs).

Machine integers are embedded as `Nat` with explicit bounds (`u64` values are
kept below `2 ^ 64` by the parser's overflow check, bytes below `256`).
Rust panics (failed `expect`, out-of-range slice indexing, failed assertions)
are embedded as `Option.none`; fallible functions returning `Result` are
embedded as `Option` with `none` for the error case.
-/

/-! ## Handle codec (src/handle.rs) -/

/-- Number of bytes of metadata. -/
def METADATA_LENGTH : Nat := 1

/-- 64 bit number, 8 bytes. -/
def UINT64_LENGTH : Nat := 8

/-- 256 bits, 32 bytes. -/
def HANDLE_LENGTH : Nat := 32

def LITERAL_CONTENT_LENGTH : Nat := HANDLE_LENGTH - METADATA_LENGTH

def CANONICAL_HASH_LENGTH : Nat := HANDLE_LENGTH - UINT64_LENGTH - METADATA_LENGTH

inductive Operation where
  | Apply
  | Eval
  | Fill
deriving DecidableEq, Repr

inductive Accessibility where
  | Strict
  | Shallow
  | Lazy
deriving DecidableEq, Repr

inductive Object where
  | Blob
  | Tree
  | Thunk
  | Tag
deriving DecidableEq, Repr

inductive Nonliteral where
  | Canonical (hash : List Nat)
  | Local (id : Nat)
deriving DecidableEq, Repr

inductive Content where
  | Other (object_type : Object) (data : Nonliteral)
  | Literal (bytes : List Nat)
deriving DecidableEq, Repr

structure Handle where
  size : Nat
  accessibility : Accessibility
  content : Content
deriving DecidableEq, Repr

/-- The Task pair type (the name Task itself is taken by the Lean core). -/
structure Task' where
  handle : Handle
  operation : Operation
deriving DecidableEq, Repr

/-- TryFrom of u8 for Accessibility: 0 Strict, 1 Shallow, 2 Lazy, else error. -/
def accessibilityTryFrom (value : Nat) : Option Accessibility :=
  match value with
  | 0 => some .Strict
  | 1 => some .Shallow
  | 2 => some .Lazy
  | _ => none

/-- Into u8 for Accessibility. -/
def accessibilityInto : Accessibility → Nat
  | .Strict => 0
  | .Shallow => 1
  | .Lazy => 2

/-- TryFrom of u8 for Object: 0 Tree, 1 Thunk, 2 Blob, 3 Tag, else error. -/
def objectTryFrom (value : Nat) : Option Object :=
  match value with
  | 0 => some .Tree
  | 1 => some .Thunk
  | 2 => some .Blob
  | 3 => some .Tag
  | _ => none

/-- From Object for u8. -/
def objectInto : Object → Nat
  | .Tree => 0
  | .Thunk => 1
  | .Blob => 2
  | .Tag => 3

/-- char::to_digit(16): hex digit value of a character (both cases accepted). -/
def hexDigitVal (c : Char) : Option Nat :=
  if '0' ≤ c ∧ c ≤ '9' then some (c.toNat - '0'.toNat)
  else if 'a' ≤ c ∧ c ≤ 'f' then some (c.toNat - 'a'.toNat + 10)
  else if 'A' ≤ c ∧ c ≤ 'F' then some (c.toNat - 'A'.toNat + 10)
  else none

def U64_BOUND : Nat := 2 ^ 64

/-- Digit-accumulation loop of u64::from_str_radix with radix 16: checked
multiply and checked add, failing on a non-digit or on overflow past u64. -/
def parseHexDigits : List Char → Nat → Option Nat
  | [], acc => some acc
  | c :: cs, acc =>
    match hexDigitVal c with
    | none => none
    | some d =>
      if acc * 16 + d < U64_BOUND then parseHexDigits cs (acc * 16 + d) else none

/-- u64::from_str_radix(src, 16): empty input fails, a single leading plus sign
is stripped (a minus sign is not a digit for an unsigned type), then digits
are folded with overflow checks. -/
def fromStrRadix16 (s : List Char) : Option Nat :=
  match s with
  | [] => none
  | ['+'] => none
  | '+' :: rest => parseHexDigits rest 0
  | _ => parseHexDigits s 0

/-- str::split on the dash character: "a-b" gives ["a","b"], "" gives [""]. -/
def splitDash : List Char → List (List Char)
  | [] => [[]]
  | c :: rest =>
    if c = '-' then [] :: splitDash rest
    else
      match splitDash rest with
      | [] => [[c]]
      | f :: fs => (c :: f) :: fs

/-- u64::to_le_bytes (first argument), generalized to an arbitrary byte count. -/
def toLeBytes (n : Nat) : Nat → List Nat
  | 0 => []
  | len + 1 => (n % 256) :: toLeBytes (n / 256) len

/-- u64::from_le_bytes over a byte list. -/
def fromLeBytes : List Nat → Nat
  | [] => 0
  | b :: rest => b + 256 * fromLeBytes rest

/-- The 32-byte little-endian buffer assembled from the four parsed u64 fields. -/
def assembleBytes (f0 f1 f2 f3 : Nat) : List Nat :=
  toLeBytes f0 8 ++ toLeBytes f1 8 ++ toLeBytes f2 8 ++ toLeBytes f3 8

/-- The byte-level part of Handle::from_hex: decode the final metadata byte
of the assembled 32-byte buffer and the content it selects. -/
def decodeBuffer (bytes : List Nat) : Option Handle :=
  let metadata := bytes.getD (HANDLE_LENGTH - 1) 0
  match accessibilityTryFrom (metadata >>> 6) with
  | none => none
  | some accessibility =>
    if metadata &&& 32 ≠ 0 then
      some { size := metadata &&& 31
             accessibility := accessibility
             content := Content.Literal (bytes.take LITERAL_CONTENT_LENGTH) }
    else
      match objectTryFrom (metadata &&& 3) with
      | none => none
      | some object_type =>
        let size := fromLeBytes ((bytes.drop (UINT64_LENGTH * 2)).take UINT64_LENGTH)
        if metadata &&& 4 ≠ 0 then
          some { size := size
                 accessibility := accessibility
                 content := Content.Other object_type (Nonliteral.Canonical
                   (bytes.take (UINT64_LENGTH * 2) ++
                    (bytes.drop (UINT64_LENGTH * 3)).take (UINT64_LENGTH - 1))) }
        else
          some { size := size
                 accessibility := accessibility
                 content := Content.Other object_type (Nonliteral.Local
                   (fromLeBytes (bytes.take UINT64_LENGTH))) }

/-- Handle::from_hex on a character list: split on dashes, parse each field as
a hex u64, require exactly 4 fields, assemble the 32-byte little-endian
buffer, then decode it. -/
def fromHexCore (input : List Char) : Option Handle :=
  match (splitDash input).mapM fromStrRadix16 with
  | none => none
  | some fields =>
    match fields with
    | [f0, f1, f2, f3] => decodeBuffer (assembleBytes f0 f1 f2 f3)
    | _ => none

/-- Handle::from_hex on a string. -/
def Handle.from_hex (input : String) : Option Handle :=
  fromHexCore input.data

/-- Handle::to_buffer: pack the handle into its 32-byte little-endian buffer.
The metadata byte is assembled by bitwise or exactly as the source does. -/
def Handle.to_buffer (h : Handle) : List Nat :=
  let accBits := accessibilityInto h.accessibility <<< 6
  match h.content with
  | .Literal data =>
    data ++ [(accBits ||| 32) ||| (h.size &&& 255)]
  | .Other object_type data =>
    let meta := accBits ||| objectInto object_type
    match data with
    | .Canonical hash =>
      hash.take (UINT64_LENGTH * 2) ++ toLeBytes h.size 8 ++
        hash.drop (UINT64_LENGTH * 2) ++ [meta ||| 4]
    | .Local id =>
      toLeBytes id 8 ++ List.replicate 8 0 ++ toLeBytes h.size 8 ++
        List.replicate 7 0 ++ [meta]

/-- Lowercase hex digit character for a value below 16. -/
def hexChar (d : Nat) : Char :=
  if d < 10 then Char.ofNat ('0'.toNat + d) else Char.ofNat ('a'.toNat + (d - 10))

/-- Accumulating loop of the lowercase hex formatter, with an explicit fuel
argument to keep the recursion structural: the loop divides by 16 each step,
so any fuel of at least the number of hex digits (in particular n itself for
positive n) computes the full digit string. -/
def natToHexGo : Nat → Nat → List Char → List Char
  | 0, _, acc => acc
  | fuel + 1, n, acc =>
    if n = 0 then acc else natToHexGo fuel (n / 16) (hexChar (n % 16) :: acc)

/-- format!("\x7b:x\x7d", n): lowercase hex rendering with no padding. -/
def natToHex (n : Nat) : List Char :=
  if n = 0 then ['0'] else natToHexGo n n []

/-- slice::chunks_exact(8) over a byte list. -/
def chunksExact8 : List Nat → List (List Nat)
  | b0 :: b1 :: b2 :: b3 :: b4 :: b5 :: b6 :: b7 :: rest =>
    [b0, b1, b2, b3, b4, b5, b6, b7] :: chunksExact8 rest
  | _ => []

/-- Handle::to_hex on a character list: chunk the buffer into four u64 words
and join their lowercase hex renderings with dashes. -/
def toHexCore (h : Handle) : List Char :=
  List.intercalate ['-'] ((chunksExact8 h.to_buffer).map fun c => natToHex (fromLeBytes c))

/-- Handle::to_hex producing a string. -/
def Handle.to_hex (h : Handle) : String :=
  String.mk (toHexCore h)

/-- Handle::get_literal_content: the first `size` bytes of the literal payload
for a Literal handle, None otherwise. Rust slices the 31-byte payload with
content[..size], which panics when size exceeds the payload length; the panic
is the outer `none`. -/
def Handle.get_literal_content (h : Handle) : Option (Option (List Nat)) :=
  match h.content with
  | .Literal content =>
    if h.size ≤ content.length then some (some (content.take h.size)) else none
  | .Other _ _ => some none

example : Handle.from_hex "10-0-0-2400000000000000" =
    some { size := 4
           accessibility := .Strict
           content := .Literal (16 :: List.replicate 30 0) } := by decide

example : Handle.from_hex "d9-0-4-100000000000000" =
    some { size := 4
           accessibility := .Strict
           content := .Other .Thunk (.Local 217) } := by decide

example : (Handle.from_hex "d9-0-4-100000000000000").map Handle.to_hex =
    some "d9-0-4-100000000000000" := by decide

/-! ## AncestorGraph (src/graph/ancestors.rs)

The graph revision used through src/graphs.rs. Rust panics (failed expect,
out-of-range indexing) are embedded as `none`; the HashMap of lineages is an
association list looked up on the first matching key, and the code only ever
inserts keys that are absent, matching HashMap semantics. -/

namespace AG

/-- Element as consumed by the ancestor graph: the graph only reads the
wrapped handle; any renderer-attached state is opaque to it (spec section 3),
so it is omitted from this embedding. -/
structure Element where
  handle : Handle
deriving DecidableEq, Repr

/-- Element::new(ui, handle): wraps the handle (renderer state omitted). -/
def Element.new (handle : Handle) : Element := ⟨handle⟩

def Element.get_handle (e : Element) : Handle := e.handle

/-- An element and all of its ancestors. -/
inductive Ancestor where
  | mk (content : Element) (parents : List Ancestor) (children : List (Nat × Operation))

def Ancestor.content : Ancestor → Element
  | .mk c _ _ => c

/-- Parents that render above this Ancestor's contained Element. -/
def Ancestor.parents : Ancestor → List Ancestor
  | .mk _ p _ => p

/-- Children (OrderingIndex, Operation) back-edges that are pointed to. -/
def Ancestor.children : Ancestor → List (Nat × Operation)
  | .mk _ _ c => c

def Ancestor.new (content : Element) (children : List (Nat × Operation)) : Ancestor :=
  .mk content [] children

/-- Ancestor::add_child: the admission test of the source requires the index
to differ from every stored index AND the operation to differ from every
stored operation (a linear scan with an all-quantified conjunction). -/
def Ancestor.add_child (a : Ancestor) (incoming_child : Nat) (operation : Operation) :
    Ancestor :=
  if a.children.all fun p => decide (p.1 ≠ incoming_child) && decide (p.2 ≠ operation) then
    .mk a.content a.parents (a.children ++ [(incoming_child, operation)])
  else a

/-- An element and all of its ancestors; the graph is append only. -/
structure AncestorGraph where
  inner : List Ancestor
  lineages : List (Handle × Nat × List Nat)
  ordering : List Handle

/-- HashMap::get over the association list of lineages. -/
def lookupLineage : List (Handle × Nat × List Nat) → Handle → Option (Nat × List Nat)
  | [], _ => none
  | (k, v) :: rest, h => if k = h then some v else lookupLineage rest h

def AncestorGraph.new (element : Element) : AncestorGraph :=
  { inner := [Ancestor.new element []]
    lineages := [(element.get_handle, (0, [0]))]
    ordering := [element.get_handle] }

/-- get_from_lineage: walk the parents lists along all but the last lineage
index, then index with the last one; an empty lineage or an out-of-range
index is a panic (none). The source iterates the prefix then indexes the
last element; this recursion consumes the same indices front to back. -/
def getFromLineage : List Ancestor → List Nat → Option Ancestor
  | _, [] => none
  | gen, [i] => gen[i]?
  | gen, i :: rest =>
    match gen[i]? with
    | none => none
    | some a => getFromLineage a.parents rest

/-- get_mut_from_lineage followed by applying a mutation to the addressed
node: the functional image of the source's mutable walk. -/
def modifyAtLineage (f : Ancestor → Ancestor) : List Ancestor → List Nat →
    Option (List Ancestor)
  | _, [] => none
  | gen, [i] =>
    match gen[i]? with
    | none => none
    | some a => some (gen.set i (f a))
  | gen, i :: rest =>
    match gen[i]? with
    | none => none
    | some a =>
      match modifyAtLineage f a.parents rest with
      | none => none
      | some ps => some (gen.set i (.mk a.content ps a.children))

/-- One iteration of the merge loop for a single incoming parent task: if the
parent handle already exists, add a back-edge on that node; otherwise append
a new node under the target child, record its lineage and ordering entry. -/
def mergeStep (child : Nat × List Nat) (g : AncestorGraph) (parent : Task') :
    Option AncestorGraph :=
  match lookupLineage g.lineages parent.handle with
  | some (_, lin) =>
    match modifyAtLineage (fun a => a.add_child child.1 parent.operation) g.inner lin with
    | none => none
    | some inner2 => some { g with inner := inner2 }
  | none =>
    match getFromLineage g.inner child.2 with
    | none => none
    | some target =>
      match modifyAtLineage
          (fun a => Ancestor.mk a.content
            (a.parents ++ [Ancestor.new (Element.new parent.handle)
              [(child.1, parent.operation)]])
            a.children)
          g.inner child.2 with
      | none => none
      | some inner2 =>
        some { inner := inner2
               lineages := (parent.handle,
                 (g.ordering.length, child.2 ++ [target.parents.length])) :: g.lineages
               ordering := g.ordering ++ [parent.handle] }

/-- AncestorGraph::merge_new_parents: the target child must exist (panic
otherwise), then every incoming parent task is folded into the tree. -/
def AncestorGraph.merge_new_parents (g : AncestorGraph) (handle : Handle)
    (incoming_parents : List Task') : Option AncestorGraph :=
  match lookupLineage g.lineages handle with
  | none => none
  | some child => incoming_parents.foldlM (mergeStep child) g

/-- AncestorGraph::iter collected to a list: each handle of the ordering is
resolved through the lineages map and the tree; a dangling entry is a panic. -/
def AncestorGraph.iterElems (g : AncestorGraph) : Option (List Element) :=
  g.ordering.mapM fun h =>
    match lookupLineage g.lineages h with
    | none => none
    | some (_, lin) => (getFromLineage g.inner lin).map Ancestor.content

def AncestorGraph.len (g : AncestorGraph) : Nat := g.ordering.length

def Y_SCALE : ℚ := 0.5

/-- The x offset contribution of one generation in get_draw_parameters:
step_size * (lineage_index - generation_length * 0.5 + 0.5), with the
source's f32 arithmetic embedded as exact rationals. -/
def x_offset_contribution (step_size : ℚ) (generation_length : Nat)
    (lineage_index : Nat) : ℚ :=
  step_size * ((lineage_index : ℚ) - (generation_length : ℚ) * (1 / 2) + 1 / 2)

/-- The per-generation loop of get_draw_parameters: divide the scale by the
sibling count, advance y by scale * Y_SCALE, advance x by the slot offset,
then descend into the indexed node's parents. -/
def drawWalk : List Ancestor → List Nat → ℚ × ℚ → ℚ → Option ((ℚ × ℚ) × ℚ)
  | _, [], pos, scale => some (pos, scale)
  | gen, i :: rest, pos, scale =>
    let scale2 := scale / (gen.length : ℚ)
    let pos2 := (pos.1 + x_offset_contribution scale2 gen.length i,
                 pos.2 + scale2 * Y_SCALE)
    match gen[i]? with
    | none => none
    | some a => drawWalk a.parents rest pos2 scale2

/-- AncestorGraph::get_draw_parameters, starting from scale 1 and position
(0, -scale * Y_SCALE) and walking the stored lineage of the indexed handle. -/
def AncestorGraph.get_draw_parameters (g : AncestorGraph) (index : Nat) :
    Option ((ℚ × ℚ) × ℚ) :=
  match g.ordering[index]? with
  | none => none
  | some h =>
    match lookupLineage g.lineages h with
    | none => none
    | some (_, lin) => drawWalk g.inner lin (0, -1 * Y_SCALE) 1

end AG

/-- A root handle used by the concrete graph scenarios. -/
def hR : Handle := { size := 0, accessibility := .Strict, content := .Other .Tree (.Local 0) }

/-- A first parent handle used by the concrete graph scenarios. -/
def hA : Handle := { size := 0, accessibility := .Strict, content := .Other .Tree (.Local 1) }

/-- A second parent handle used by the concrete graph scenarios. -/
def hB : Handle := { size := 0, accessibility := .Strict, content := .Other .Tree (.Local 2) }

example : (AG.AncestorGraph.new (AG.Element.new hR)).iterElems = some [AG.Element.new hR] := by
  decide

example :
    ((AG.AncestorGraph.new (AG.Element.new hR)).merge_new_parents hR
        [⟨hA, .Apply⟩, ⟨hB, .Eval⟩]).map (fun g => g.ordering) =
      some [hR, hA, hB] := by decide

/-! ## Concrete claim scenarios -/

/-- C1 counterexample: the string "0-0-0-800000000000000" has exactly four
canonical (lowercase, unpadded) hex fields and decodes successfully, but
re-encoding the decoded handle yields "0-0-0-0", not the original string:
bits 3 and 4 of the metadata byte are ignored by decode and zeroed by encode,
so encode(decode(s)) = s fails for this well-formed canonical s. -/
theorem C1_counterexample :
    (Handle.from_hex "0-0-0-800000000000000").map Handle.to_hex = some "0-0-0-0" ∧
      ("0-0-0-0" : String) ≠ "0-0-0-800000000000000" := by
  constructor
  · decide
  · decide

/-- C4 counterexample: the claim says from_hex must return an error for every
input whose fields contain characters that are not valid hexadecimal, but
"+0" contains the plus sign, which is not a hex digit, and from_hex accepts
the input (u64::from_str_radix strips one leading plus sign). -/
theorem C4_counterexample :
    hexDigitVal '+' = none ∧
      Handle.from_hex "+0-0-0-0" =
        some { size := 0
               accessibility := .Strict
               content := .Other .Tree (.Local 0) } := by
  constructor
  · decide
  · decide

/-- C5: decoding "862fcba5ecaade2c-4b24159ac7c28a29-3-715eb1e41f37d42" yields
size 3, accessibility Strict, object type Tag, and Canonical content whose
23-byte hash is the 16 little-endian bytes of the first two fields followed
by the low 7 bytes of the final field (size window and metadata excluded);
encoding that handle returns the same string. -/
theorem C5_canonical_scenario :
    Handle.from_hex "862fcba5ecaade2c-4b24159ac7c28a29-3-715eb1e41f37d42" =
      some { size := 3
             accessibility := .Strict
             content := .Other .Tag (.Canonical
               (toLeBytes 0x862fcba5ecaade2c 8 ++ toLeBytes 0x4b24159ac7c28a29 8 ++
                (toLeBytes 0x715eb1e41f37d42 8).take 7)) } ∧
      (Handle.from_hex "862fcba5ecaade2c-4b24159ac7c28a29-3-715eb1e41f37d42").map
          Handle.to_hex =
        some "862fcba5ecaade2c-4b24159ac7c28a29-3-715eb1e41f37d42" := by
  constructor
  · decide
  · decide

/-- The graph grown for the C2 back-edge scenario: root R, then A merged as a
parent of R with Apply, then B merged as a parent of A with Apply, and
finally B reported again as a parent of R with Apply. At that last merge B
already exists (back-edge list [(1, Apply)]), and the (0, Apply) pair is not
yet stored, so the claim requires B to gain exactly one additional back-edge. -/
def C2graph : Option AG.AncestorGraph :=
  (AG.AncestorGraph.new (AG.Element.new hR)).merge_new_parents hR [⟨hA, .Apply⟩] >>=
    fun g => g.merge_new_parents hA [⟨hB, .Apply⟩] >>=
    fun g => g.merge_new_parents hR [⟨hB, .Apply⟩]

/-- C2 evaluation at the failing input: after the final merge the node for B
(lineage [0, 0, 0]) still has back-edge list [(1, Apply)] — the admission
test of add_child rejects (0, Apply) because an existing back-edge already
carries the operation Apply, even though the (index, operation) pair
(0, Apply) is not present. The node count stays 3 as expected. -/
theorem C2_dedup_eval :
    C2graph.map (fun g =>
        ((AG.getFromLineage g.inner [0, 0, 0]).map AG.Ancestor.children,
          g.ordering.length)) =
      some (some [(1, Operation.Apply)], 3) := by decide

/-- C3: starting from a graph rooted at R, merging [(A, Apply)] into R twice
leaves the node count at exactly 2 and leaves A's back-edge list with the
single entry (0, Apply), where 0 is R's OrderingIndex. -/
theorem C3_merge_idempotent :
    (((AG.AncestorGraph.new (AG.Element.new hR)).merge_new_parents hR
          [⟨hA, .Apply⟩] >>=
        fun g => g.merge_new_parents hR [⟨hA, .Apply⟩]).map fun g =>
        ((g.iterElems).map List.length, g.ordering,
          (AG.getFromLineage g.inner [0, 0]).map AG.Ancestor.children)) =
      some (some 2, [hR, hA], some [(0, Operation.Apply)]) := by decide

/-! ## C6: get_literal_content -/

/-- C6: get_literal_content returns exactly the first size bytes of the
literal payload when the content is Literal (the size staying within the
31-byte payload, as the data model guarantees — Rust would panic on the
slice otherwise), and None when the content is not Literal. -/
theorem C6_get_literal_content (h : Handle) :
    (∀ bytes, h.content = Content.Literal bytes → h.size ≤ bytes.length →
      h.get_literal_content = some (some (bytes.take h.size))) ∧
    (∀ o d, h.content = Content.Other o d → h.get_literal_content = some none) := by
  obtain ⟨s, a, c⟩ := h
  constructor
  · intro bytes hb hle
    subst hb
    simp [Handle.get_literal_content, hle]
  · intro o d hb
    subst hb
    simp [Handle.get_literal_content]

/-- C6 witness: a literal handle of size 1 whose payload starts with byte 7
yields exactly that one byte; a non-literal handle yields none. -/
theorem C6_get_literal_content_witness :
    ({ size := 1, accessibility := .Strict,
       content := .Literal (7 :: List.replicate 30 0) } : Handle).get_literal_content =
        some (some [7]) ∧
      hR.get_literal_content = some none := by
  constructor
  · have := (C6_get_literal_content
      { size := 1, accessibility := .Strict,
        content := .Literal (7 :: List.replicate 30 0) }).1
      (7 :: List.replicate 30 0) rfl (by simp)
    simpa using this
  · exact (C6_get_literal_content hR).2 .Tree (.Local 0) rfl

/-! ## C10: layout symmetry of the x offsets -/

/-- C10: within a generation of N siblings, the x offset contributions
computed by get_draw_parameters are symmetric around 0 (slots i and N-1-i
sum to zero) and evenly spaced with step equal to the generation's scale
(the step_size). -/
theorem C10_layout_symmetry (s : ℚ) (n i : Nat) (hi : i < n) :
    AG.x_offset_contribution s n i + AG.x_offset_contribution s n (n - 1 - i) = 0 ∧
      (i + 1 < n →
        AG.x_offset_contribution s n (i + 1) - AG.x_offset_contribution s n i = s) := by
  unfold AG.x_offset_contribution
  constructor
  · have h1 : i + 1 ≤ n := hi
    have h2 : n - 1 - i = n - (i + 1) := by omega
    rw [h2, Nat.cast_sub h1]
    push_cast
    ring
  · intro _
    push_cast
    ring

/-- C10 witness at a generation of two siblings with scale 1. -/
theorem C10_layout_symmetry_witness :
    0 < 2 ∧
      (AG.x_offset_contribution 1 2 0 + AG.x_offset_contribution 1 2 (2 - 1 - 0) = 0 ∧
        (0 + 1 < 2 →
          AG.x_offset_contribution 1 2 (0 + 1) - AG.x_offset_contribution 1 2 0 = 1)) :=
  ⟨by decide, C10_layout_symmetry 1 2 0 (by decide)⟩

/-! ## C8: identity stability under merges -/

namespace AG

/-- One merge step never rewrites an existing lineages entry: it either only
mutates the tree, or conses a binding for a handle that was absent. -/
theorem mergeStep_stable {child : Nat × List Nat} {g g' : AncestorGraph} {p : Task'}
    (h : mergeStep child g p = some g') :
    (∀ k v, lookupLineage g.lineages k = some v → lookupLineage g'.lineages k = some v) ∧
      (∀ i, i < g.ordering.length → g'.ordering[i]? = g.ordering[i]?) ∧
      g.ordering.length ≤ g'.ordering.length := by
  unfold mergeStep at h
  split at h
  case h_1 _ lin hl =>
    split at h
    · cases h
    · cases h
      exact ⟨fun _ _ hv => hv, fun _ _ => rfl, le_refl _⟩
  case h_2 hl =>
    split at h
    · cases h
    case h_2 target hg =>
      split at h
      · cases h
      · cases h
        refine ⟨?_, ?_, ?_⟩
        · intro k v hv
          have hk : ¬ p.handle = k := by
            intro he
            rw [he, hv] at hl
            cases hl
          simpa [lookupLineage, hk] using hv
        · intro i hi
          exact List.getElem?_append_left hi
        · simp
end AG

/-- C8: the OrderingIndex and Lineage of every node already in the graph, and
its position in the ordering vector, are unchanged by any subsequent
merge_new_parents call, whatever its target and incoming tasks. -/
theorem C8_identity_stability (g g' : AG.AncestorGraph) (target : Handle)
    (ts : List Task') (hm : g.merge_new_parents target ts = some g') :
    (∀ k v, AG.lookupLineage g.lineages k = some v →
        AG.lookupLineage g'.lineages k = some v) ∧
      (∀ i, i < g.ordering.length → g'.ordering[i]? = g.ordering[i]?) := by
  unfold AG.AncestorGraph.merge_new_parents at hm
  cases hl : AG.lookupLineage g.lineages target with
  | none => rw [hl] at hm; cases hm
  | some child =>
    rw [hl] at hm
    clear hl
    suffices hgen : ∀ (l : List Task') (g0 g1 : AG.AncestorGraph),
        l.foldlM (AG.mergeStep child) g0 = some g1 →
        (∀ k v, AG.lookupLineage g0.lineages k = some v →
            AG.lookupLineage g1.lineages k = some v) ∧
          (∀ i, i < g0.ordering.length → g1.ordering[i]? = g0.ordering[i]?) ∧
          g0.ordering.length ≤ g1.ordering.length by
      obtain ⟨a, b, _⟩ := hgen ts g g' hm
      exact ⟨a, b⟩
    intro l
    induction l with
    | nil =>
      intro g0 g1 hf
      simp only [List.foldlM_nil, Option.pure_def, Option.some.injEq] at hf
      subst hf
      exact ⟨fun _ _ hv => hv, fun _ _ => rfl, le_refl _⟩
    | cons p rest ih =>
      intro g0 g1 hf
      simp only [List.foldlM_cons] at hf
      cases hs : AG.mergeStep child g0 p with
      | none => rw [hs] at hf; cases hf
      | some gmid =>
        rw [hs] at hf
        obtain ⟨s1, s2, s3⟩ := AG.mergeStep_stable hs
        obtain ⟨t1, t2, t3⟩ := ih gmid g1 hf
        refine ⟨fun k v hv => t1 k v (s1 k v hv), ?_, le_trans s3 t3⟩
        intro i hi
        rw [t2 i (lt_of_lt_of_le hi s3), s2 i hi]

/-- The graph obtained by merging A below the root R, written out. -/
def C8G1 : AG.AncestorGraph :=
  { inner := [AG.Ancestor.mk (AG.Element.new hR)
      [AG.Ancestor.mk (AG.Element.new hA) [] [(0, .Apply)]] []]
    lineages := [(hA, (1, [0, 0])), (hR, (0, [0]))]
    ordering := [hR, hA] }

/-- C8 witness: merging one new parent into the fresh root graph preserves
the root's lineages entry and ordering slot. -/
theorem C8_identity_stability_witness :
    (AG.AncestorGraph.new (AG.Element.new hR)).merge_new_parents hR
        [⟨hA, .Apply⟩] = some C8G1 ∧
      (∀ k v, AG.lookupLineage (AG.AncestorGraph.new (AG.Element.new hR)).lineages k =
          some v → AG.lookupLineage C8G1.lineages k = some v) ∧
      (∀ i, i < (AG.AncestorGraph.new (AG.Element.new hR)).ordering.length →
        C8G1.ordering[i]? = (AG.AncestorGraph.new (AG.Element.new hR)).ordering[i]?) := by
  have h8 : (AG.AncestorGraph.new (AG.Element.new hR)).merge_new_parents hR
      [⟨hA, .Apply⟩] = some C8G1 := rfl
  exact ⟨h8, (C8_identity_stability _ C8G1 hR _ h8).1,
    (C8_identity_stability _ C8G1 hR _ h8).2⟩

/-! ## C7: the merge precondition is the only panic source -/

namespace AG

/-- Every stored lineage resolves to a node of the tree. This invariant holds
for every graph the program can build (established for new below and
preserved by merge_new_parents). -/
def ValidLineages (g : AncestorGraph) : Prop :=
  ∀ p ∈ g.lineages, (getFromLineage g.inner p.2.2).isSome = true

theorem lookupLineage_mem {m : List (Handle × Nat × List Nat)} {h : Handle}
    {v : Nat × List Nat} (hv : lookupLineage m h = some v) : (h, v) ∈ m := by
  induction m with
  | nil => cases hv
  | cons a rest ih =>
    obtain ⟨k, w⟩ := a
    by_cases hk : k = h
    · subst hk
      simp [lookupLineage] at hv
      simp [hv]
    · simp only [lookupLineage, if_neg hk] at hv
      exact List.mem_cons_of_mem _ (ih hv)

theorem isSome_getElem? {α : Type} (l : List α) (i : Nat) :
    l[i]?.isSome = true ↔ i < l.length := by
  rw [Option.isSome_iff_exists]
  constructor
  · rintro ⟨a, ha⟩
    exact (List.getElem?_eq_some.mp ha).1
  · intro h
    exact ⟨l[i], List.getElem?_eq_some.mpr ⟨h, rfl⟩⟩

/-- A resolvable lineage can be modified: the mutable walk takes the same
path as the read-only walk. -/
theorem modifyAtLineage_isSome (f : Ancestor → Ancestor) :
    ∀ (lin : List Nat) (gen : List Ancestor),
      (getFromLineage gen lin).isSome = true →
      (modifyAtLineage f gen lin).isSome = true
  | [], _ => by simp [getFromLineage]
  | [i], gen => by
    cases hg : gen[i]? with
    | none => simp [getFromLineage, hg]
    | some a => simp [getFromLineage, modifyAtLineage, hg]
  | i :: j :: rest, gen => by
    cases hg : gen[i]? with
    | none => simp [getFromLineage, hg]
    | some a =>
      intro hs
      have hrec := modifyAtLineage_isSome f (j :: rest) a.parents
        (by simpa [getFromLineage, hg] using hs)
      cases hm : modifyAtLineage f a.parents (j :: rest) with
      | none => rw [hm] at hrec; cases hrec
      | some ps => simp [modifyAtLineage, hg, hm]

/-- Extending a generation list on the right does not disturb what a lineage
resolves to. -/
theorem getFromLineage_append (t : List Ancestor) :
    ∀ (lin : List Nat) (gen : List Ancestor) (a : Ancestor),
      getFromLineage gen lin = some a → getFromLineage (gen ++ t) lin = some a
  | [], _, _ => by simp [getFromLineage]
  | [i], gen, a => by
    intro h
    simp only [getFromLineage] at h ⊢
    have hi : i < gen.length := (List.getElem?_eq_some.mp h).1
    rwa [List.getElem?_append_left hi]
  | i :: j :: rest, gen, a => by
    intro h
    cases hg : gen[i]? with
    | none => simp [getFromLineage, hg] at h
    | some b =>
      have hi : i < gen.length := (List.getElem?_eq_some.mp hg).1
      have h2 : getFromLineage b.parents (j :: rest) = some a := by
        simpa [getFromLineage, hg] using h
      simp only [getFromLineage, List.getElem?_append_left hi, hg]
      exact h2

theorem getFromLineage_append_isSome (t : List Ancestor) (lin : List Nat)
    (gen : List Ancestor) (h : (getFromLineage gen lin).isSome = true) :
    (getFromLineage (gen ++ t) lin).isSome = true := by
  obtain ⟨a, ha⟩ := Option.isSome_iff_exists.mp h
  rw [getFromLineage_append t lin gen a ha]
  rfl

/-- A modification that only extends the parents list of the addressed node
keeps every resolvable lineage resolvable. -/
theorem modifyAtLineage_preserves (f : Ancestor → Ancestor)
    (hf : ∀ a, ∃ t, (f a).parents = a.parents ++ t) :
    ∀ (lin : List Nat) (gen gen' : List Ancestor),
      modifyAtLineage f gen lin = some gen' →
      ∀ lin2, (getFromLineage gen lin2).isSome = true →
        (getFromLineage gen' lin2).isSome = true
  | [], gen, gen' => by simp [modifyAtLineage]
  | [i], gen, gen' => by
    intro hm lin2 hs
    cases hg : gen[i]? with
    | none => simp [modifyAtLineage, hg] at hm
    | some a =>
      have hi : i < gen.length := (List.getElem?_eq_some.mp hg).1
      have hgen' : gen' = gen.set i (f a) := by
        simp [modifyAtLineage, hg] at hm
        exact hm.symm
      subst hgen'
      match lin2 with
      | [] => simp [getFromLineage] at hs
      | [k] =>
        rw [getFromLineage, isSome_getElem?] at hs ⊢
        simp only [List.length_set]
        exact hs
      | k :: l2 :: rest2 =>
        by_cases hk : k = i
        · subst hk
          rw [show getFromLineage gen (k :: l2 :: rest2) =
              getFromLineage a.parents (l2 :: rest2) by simp [getFromLineage, hg]] at hs
          rw [show getFromLineage (gen.set k (f a)) (k :: l2 :: rest2) =
              getFromLineage (f a).parents (l2 :: rest2) by
            simp [getFromLineage, List.getElem?_set_self hi]]
          obtain ⟨t, ht⟩ := hf a
          rw [ht]
          exact getFromLineage_append_isSome t (l2 :: rest2) a.parents hs
        · have hk' : i ≠ k := fun he => hk he.symm
          rw [show getFromLineage (gen.set i (f a)) (k :: l2 :: rest2) =
              match gen[k]? with
              | none => none
              | some b => getFromLineage b.parents (l2 :: rest2) by
            simp [getFromLineage, List.getElem?_set_ne hk']]
          rw [show getFromLineage gen (k :: l2 :: rest2) =
              match gen[k]? with
              | none => none
              | some b => getFromLineage b.parents (l2 :: rest2) by
            simp [getFromLineage]] at hs
          exact hs
  | i :: j :: rest, gen, gen' => by
    intro hm lin2 hs
    cases hg : gen[i]? with
    | none => simp [modifyAtLineage, hg] at hm
    | some a =>
      have hi : i < gen.length := (List.getElem?_eq_some.mp hg).1
      cases hps : modifyAtLineage f a.parents (j :: rest) with
      | none => simp [modifyAtLineage, hg, hps] at hm
      | some ps =>
        have hgen' : gen' = gen.set i (Ancestor.mk a.content ps a.children) := by
          simp [modifyAtLineage, hg, hps] at hm
          exact hm.symm
        subst hgen'
        match lin2 with
        | [] => simp [getFromLineage] at hs
        | [k] =>
          rw [getFromLineage, isSome_getElem?] at hs ⊢
          simp only [List.length_set]
          exact hs
        | k :: l2 :: rest2 =>
          by_cases hk : k = i
          · subst hk
            rw [show getFromLineage gen (k :: l2 :: rest2) =
                getFromLineage a.parents (l2 :: rest2) by simp [getFromLineage, hg]] at hs
            rw [show getFromLineage (gen.set k (Ancestor.mk a.content ps a.children))
                  (k :: l2 :: rest2) =
                getFromLineage ps (l2 :: rest2) by
              simp [getFromLineage, List.getElem?_set_self hi, Ancestor.parents]]
            exact modifyAtLineage_preserves f hf (j :: rest) a.parents ps hps
              (l2 :: rest2) hs
          · have hk' : i ≠ k := fun he => hk he.symm
            rw [show getFromLineage (gen.set i (Ancestor.mk a.content ps a.children))
                  (k :: l2 :: rest2) =
                match gen[k]? with
                | none => none
                | some b => getFromLineage b.parents (l2 :: rest2) by
              simp [getFromLineage, List.getElem?_set_ne hk']]
            rw [show getFromLineage gen (k :: l2 :: rest2) =
                match gen[k]? with
                | none => none
                | some b => getFromLineage b.parents (l2 :: rest2) by
              simp [getFromLineage]] at hs
            exact hs

/-- Pushing a new parent node under the target addressed by a lineage makes
the extended lineage (child indices plus the old parents count) resolve to
the pushed node. -/
theorem modifyAtLineage_push_get (x : Ancestor) :
    ∀ (lin : List Nat) (gen gen' : List Ancestor) (target : Ancestor),
      getFromLineage gen lin = some target →
      modifyAtLineage (fun a => Ancestor.mk a.content (a.parents ++ [x]) a.children)
          gen lin = some gen' →
      getFromLineage gen' (lin ++ [target.parents.length]) = some x
  | [], _, _, _ => by simp [getFromLineage]
  | [i], gen, gen', target => by
    intro hget hm
    simp only [getFromLineage] at hget
    have hi : i < gen.length := (List.getElem?_eq_some.mp hget).1
    have hgen' : gen' = gen.set i
        (Ancestor.mk target.content (target.parents ++ [x]) target.children) := by
      simp [modifyAtLineage, hget] at hm
      exact hm.symm
    subst hgen'
    show getFromLineage _ (i :: [target.parents.length]) = some x
    simp [getFromLineage, List.getElem?_set_self hi, Ancestor.parents,
      List.getElem?_concat_length]
  | i :: j :: rest, gen, gen', target => by
    intro hget hm
    cases hg : gen[i]? with
    | none => simp [getFromLineage, hg] at hget
    | some a =>
      have hi : i < gen.length := (List.getElem?_eq_some.mp hg).1
      have hget2 : getFromLineage a.parents (j :: rest) = some target := by
        simpa [getFromLineage, hg] using hget
      cases hps : modifyAtLineage
          (fun a => Ancestor.mk a.content (a.parents ++ [x]) a.children)
          a.parents (j :: rest) with
      | none => simp [modifyAtLineage, hg, hps] at hm
      | some ps =>
        have hgen' : gen' = gen.set i (Ancestor.mk a.content ps a.children) := by
          simp [modifyAtLineage, hg, hps] at hm
          exact hm.symm
        subst hgen'
        show getFromLineage _ (i :: (j :: rest ++ [target.parents.length])) = some x
        have hrec := modifyAtLineage_push_get x (j :: rest) a.parents ps target hget2 hps
        cases hrest : (rest : List Nat) with
        | nil =>
          subst hrest
          simp only [getFromLineage, List.getElem?_set_self hi, Ancestor.parents,
            List.cons_append, List.nil_append]
          simpa using hrec
        | cons r rs =>
          subst hrest
          simp only [getFromLineage, List.getElem?_set_self hi, Ancestor.parents,
            List.cons_append]
          simpa using hrec

theorem add_child_parents (a : Ancestor) (i : Nat) (op : Operation) :
    (a.add_child i op).parents = a.parents := by
  unfold Ancestor.add_child
  split <;> rfl

/-- Under the lineage invariant, one merge step always succeeds and keeps the
invariant, together with the resolvability of the target child's lineage. -/
theorem mergeStep_total (child : Nat × List Nat) (g : AncestorGraph) (p : Task')
    (hw : ValidLineages g) (hc : (getFromLineage g.inner child.2).isSome = true) :
    ∃ g', mergeStep child g p = some g' ∧ ValidLineages g' ∧
      (getFromLineage g'.inner child.2).isSome = true := by
  cases hl : lookupLineage g.lineages p.handle with
  | some v =>
    obtain ⟨ci, lin⟩ := v
    have hlin : (getFromLineage g.inner lin).isSome = true := hw _ (lookupLineage_mem hl)
    obtain ⟨inner2, hm⟩ := Option.isSome_iff_exists.mp
      (modifyAtLineage_isSome (fun a => a.add_child child.1 p.operation) lin g.inner hlin)
    have hf : ∀ a : Ancestor, ∃ t, (a.add_child child.1 p.operation).parents =
        a.parents ++ t :=
      fun a => ⟨[], by rw [add_child_parents, List.append_nil]⟩
    refine ⟨{ g with inner := inner2 }, ?_, ?_, ?_⟩
    · unfold mergeStep
      rw [hl]
      dsimp only
      rw [hm]
    · intro q hq
      exact modifyAtLineage_preserves _ hf lin g.inner inner2 hm q.2.2 (hw q hq)
    · exact modifyAtLineage_preserves _ hf lin g.inner inner2 hm child.2 hc
  | none =>
    obtain ⟨target, hg⟩ := Option.isSome_iff_exists.mp hc
    have hf : ∀ a : Ancestor, ∃ t,
        (Ancestor.mk a.content
          (a.parents ++ [Ancestor.new (Element.new p.handle)
            [(child.1, p.operation)]]) a.children).parents = a.parents ++ t :=
      fun a => ⟨_, rfl⟩
    obtain ⟨inner2, hm⟩ := Option.isSome_iff_exists.mp
      (modifyAtLineage_isSome _ child.2 g.inner hc)
    refine ⟨{ inner := inner2
              lineages := (p.handle,
                (g.ordering.length, child.2 ++ [target.parents.length])) :: g.lineages
              ordering := g.ordering ++ [p.handle] }, ?_, ?_, ?_⟩
    · unfold mergeStep
      rw [hl]
      dsimp only
      rw [hg, hm]
    · intro q hq
      rcases List.mem_cons.mp hq with hq1 | hq2
      · subst hq1
        have := modifyAtLineage_push_get
          (Ancestor.new (Element.new p.handle) [(child.1, p.operation)])
          child.2 g.inner inner2 target hg hm
        simp only [Ancestor.new] at this ⊢
        rw [this]
        rfl
      · exact modifyAtLineage_preserves _ hf child.2 g.inner inner2 hm q.2.2 (hw q hq2)
    · exact modifyAtLineage_preserves _ hf child.2 g.inner inner2 hm child.2 hc

/-- The merge fold over the incoming tasks always succeeds under the
invariant, and preserves it. -/
theorem foldlM_mergeStep_total (child : Nat × List Nat) :
    ∀ (ts : List Task') (g : AncestorGraph), ValidLineages g →
      (getFromLineage g.inner child.2).isSome = true →
      ∃ g', ts.foldlM (mergeStep child) g = some g' ∧ ValidLineages g'
  | [], g => fun hw _ => ⟨g, by simp, hw⟩
  | p :: rest, g => fun hw hc => by
    obtain ⟨g1, h1, hw1, hc1⟩ := mergeStep_total child g p hw hc
    obtain ⟨g', h2, hw2⟩ := foldlM_mergeStep_total child rest g1 hw1 hc1
    exact ⟨g', by simp only [List.foldlM_cons, h1]; exact h2, hw2⟩

/-- The invariant holds for a freshly rooted graph. -/
theorem ValidLineages_new (e : Element) : ValidLineages (AncestorGraph.new e) := by
  intro p hp
  simp [AncestorGraph.new] at hp
  subst hp
  simp [getFromLineage, Ancestor.new, AncestorGraph.new]

/-- The invariant is preserved by every successful merge, so it holds for
every graph the program can reach. -/
theorem ValidLineages_merge {g g' : AncestorGraph} {target : Handle} {ts : List Task'}
    (hw : ValidLineages g) (hm : g.merge_new_parents target ts = some g') :
    ValidLineages g' := by
  cases hl : lookupLineage g.lineages target with
  | none =>
    have hnone : g.merge_new_parents target ts = none := by
      unfold AncestorGraph.merge_new_parents
      rw [hl]
    rw [hnone] at hm
    cases hm
  | some child =>
    have hc : (getFromLineage g.inner child.2).isSome = true :=
      hw _ (lookupLineage_mem hl)
    obtain ⟨g'', hsome, hw'⟩ := foldlM_mergeStep_total child ts g hw hc
    have heq : g.merge_new_parents target ts = some g'' := by
      unfold AncestorGraph.merge_new_parents
      rw [hl]
      dsimp only
      exact hsome
    rw [heq] at hm
    cases hm
    exact hw'

end AG

/-- C7: under the lineage invariant (which holds for every reachable graph),
merge_new_parents panics if and only if the target handle is absent from the
lineages map; when the target exists the call completes normally. -/
theorem C7_merge_panics_iff (g : AG.AncestorGraph) (target : Handle)
    (ts : List Task') (hw : AG.ValidLineages g) :
    g.merge_new_parents target ts = none ↔
      AG.lookupLineage g.lineages target = none := by
  constructor
  · intro hnone
    cases hl : AG.lookupLineage g.lineages target with
    | none => rfl
    | some child =>
      have hc : (AG.getFromLineage g.inner child.2).isSome = true :=
        hw _ (AG.lookupLineage_mem hl)
      obtain ⟨g', hsome, _⟩ := AG.foldlM_mergeStep_total child ts g hw hc
      have heq : g.merge_new_parents target ts = some g' := by
        unfold AG.AncestorGraph.merge_new_parents
        rw [hl]
        dsimp only
        exact hsome
      rw [heq] at hnone
      cases hnone
  · intro h
    unfold AG.AncestorGraph.merge_new_parents
    rw [h]

/-- C7 witness: on the rooted graph (which satisfies the invariant), merging
into the absent handle hB panics, and the right side of the equivalence
holds as well. -/
theorem C7_merge_panics_iff_witness :
    AG.ValidLineages (AG.AncestorGraph.new (AG.Element.new hR)) ∧
      ((AG.AncestorGraph.new (AG.Element.new hR)).merge_new_parents hB
          [⟨hA, .Apply⟩] = none ↔
        AG.lookupLineage (AG.AncestorGraph.new (AG.Element.new hR)).lineages hB =
          none) := by
  have hw : AG.ValidLineages (AG.AncestorGraph.new (AG.Element.new hR)) := by
    intro p hp
    simp [AG.AncestorGraph.new] at hp
    subst hp
    simp [AG.getFromLineage, AG.Ancestor.new, AG.AncestorGraph.new]
  exact ⟨hw, C7_merge_panics_iff _ hB [⟨hA, .Apply⟩] hw⟩

/-! ## C1: codec round-trip machinery -/

/-- Number of hex digits of n (0 for n = 0). -/
def hexLen (n : Nat) : Nat :=
  if h : n = 0 then 0 else hexLen (n / 16) + 1
termination_by n
decreasing_by exact Nat.div_lt_self (Nat.pos_of_ne_zero h) (by decide)

/-- The digit string the hex formatter produces, described by recursion on the
value (natToHexGo computes the same string with its fuel loop). -/
def hexDigits (n : Nat) : List Char :=
  if _h : n = 0 then [] else hexDigits (n / 16) ++ [hexChar (n % 16)]
termination_by n
decreasing_by exact Nat.div_lt_self (Nat.pos_of_ne_zero _h) (by decide)

theorem hexLen_zero : hexLen 0 = 0 := by
  unfold hexLen
  rfl

theorem hexLen_succ {n : Nat} (h : n ≠ 0) : hexLen n = hexLen (n / 16) + 1 := by
  conv_lhs => rw [hexLen]
  simp [h]

theorem hexDigits_zero : hexDigits 0 = [] := by
  unfold hexDigits
  rfl

theorem hexDigits_succ {n : Nat} (h : n ≠ 0) :
    hexDigits n = hexDigits (n / 16) ++ [hexChar (n % 16)] := by
  conv_lhs => rw [hexDigits]
  simp [h]

theorem natToHexGo_eq_hexDigits :
    ∀ (fuel n : Nat) (acc : List Char), n ≤ fuel →
      natToHexGo fuel n acc = hexDigits n ++ acc := by
  intro fuel
  induction fuel with
  | zero =>
    intro n acc h
    have : n = 0 := Nat.le_zero.mp h
    subst this
    simp [natToHexGo, hexDigits_zero]
  | succ fuel ih =>
    intro n acc h
    by_cases hn : n = 0
    · subst hn
      simp [natToHexGo, hexDigits_zero]
    · have hdiv : n / 16 ≤ fuel := by
        have := Nat.div_lt_self (Nat.pos_of_ne_zero hn) (show 1 < 16 by decide)
        omega
      simp only [natToHexGo, if_neg hn]
      rw [ih (n / 16) (hexChar (n % 16) :: acc) hdiv, hexDigits_succ hn,
        List.append_cons]

theorem hexDigitVal_hexChar : ∀ d, d < 16 → hexDigitVal (hexChar d) = some d := by
  decide

theorem hexChar_ne_plus : ∀ d, d < 16 → ¬ hexChar d = '+' := by decide

theorem hexChar_ne_dash : ∀ d, d < 16 → ¬ hexChar d = '-' := by decide

theorem parseHexDigits_hexDigits :
    ∀ (n : Nat), ∀ (cs : List Char) (a : Nat),
      a * 16 ^ hexLen n + n < U64_BOUND →
      parseHexDigits (hexDigits n ++ cs) a = parseHexDigits cs (a * 16 ^ hexLen n + n) := by
  intro n
  induction n using Nat.strong_induction_on with
  | _ n ih =>
    intro cs a hbound
    by_cases hn : n = 0
    · subst hn
      simp [hexDigits_zero, hexLen_zero]
    · have hpos := Nat.pos_of_ne_zero hn
      have hdiv : n / 16 < n := Nat.div_lt_self hpos (by decide)
      have hkey : (a * 16 ^ hexLen (n / 16) + n / 16) * 16 + n % 16 =
          a * 16 ^ hexLen n + n := by
        rw [hexLen_succ hn, pow_succ]
        calc (a * 16 ^ hexLen (n / 16) + n / 16) * 16 + n % 16
            = a * (16 ^ hexLen (n / 16) * 16) + (16 * (n / 16) + n % 16) := by ring
          _ = a * (16 ^ hexLen (n / 16) * 16) + n := by rw [Nat.div_add_mod]
      have hb2 : a * 16 ^ hexLen (n / 16) + n / 16 < U64_BOUND := by
        omega
      rw [hexDigits_succ hn, List.append_assoc]
      rw [ih (n / 16) hdiv ([hexChar (n % 16)] ++ cs) a hb2]
      have hmod : n % 16 < 16 := Nat.mod_lt n (by decide)
      simp only [List.singleton_append, parseHexDigits, hexDigitVal_hexChar _ hmod]
      rw [hkey]
      simp [hbound]

theorem fromStrRadix16_cons_ne_plus {c : Char} (cs : List Char) (h : ¬ c = '+') :
    fromStrRadix16 (c :: cs) = parseHexDigits (c :: cs) 0 := by
  unfold fromStrRadix16
  split
  · simp_all
  · simp_all
  · simp_all
  · rfl

theorem hexDigits_head : ∀ (n : Nat), n ≠ 0 →
    ∃ d rest, hexDigits n = hexChar d :: rest ∧ d < 16 := by
  intro n
  induction n using Nat.strong_induction_on with
  | _ n ih =>
    intro hn
    have hmod : n % 16 < 16 := Nat.mod_lt n (by omega)
    by_cases hq : n / 16 = 0
    · exact ⟨n % 16, [], by rw [hexDigits_succ hn, hq, hexDigits_zero]; rfl, hmod⟩
    · have hdiv : n / 16 < n := Nat.div_lt_self (Nat.pos_of_ne_zero hn) (by decide)
      obtain ⟨d, rest, hd, hdlt⟩ := ih (n / 16) hdiv hq
      exact ⟨d, rest ++ [hexChar (n % 16)],
        by rw [hexDigits_succ hn, hd]; rfl, hdlt⟩

/-- Round trip of the formatter through the parser: parsing the lowercase hex
rendering of any u64 value recovers the value. -/
theorem fromStrRadix16_natToHex (n : Nat) (hn : n < U64_BOUND) :
    fromStrRadix16 (natToHex n) = some n := by
  by_cases h0 : n = 0
  · subst h0
    decide
  · rw [natToHex, if_neg h0, natToHexGo_eq_hexDigits n n [] le_rfl, List.append_nil]
    obtain ⟨d, rest, hd, hdlt⟩ := hexDigits_head n h0
    rw [hd, fromStrRadix16_cons_ne_plus rest (hexChar_ne_plus d hdlt), ← hd]
    have := parseHexDigits_hexDigits n [] 0 (by simpa using hn)
    simp only [List.append_nil] at this
    rw [this]
    simp [parseHexDigits]

theorem mem_hexDigits : ∀ (n : Nat) (c : Char), c ∈ hexDigits n →
    ∃ d, d < 16 ∧ c = hexChar d := by
  intro n
  induction n using Nat.strong_induction_on with
  | _ n ih =>
    intro c hc
    by_cases hn : n = 0
    · subst hn
      rw [hexDigits_zero] at hc
      cases hc
    · rw [hexDigits_succ hn] at hc
      rcases List.mem_append.mp hc with h1 | h2
      · exact ih (n / 16) (Nat.div_lt_self (Nat.pos_of_ne_zero hn) (by decide)) c h1
      · have : c = hexChar (n % 16) := by simpa using h2
        exact ⟨n % 16, Nat.mod_lt n (by omega), this⟩

theorem mem_natToHex (n : Nat) (c : Char) (hc : c ∈ natToHex n) :
    ∃ d, d < 16 ∧ c = hexChar d := by
  by_cases h0 : n = 0
  · subst h0
    simp [natToHex] at hc
    exact ⟨0, by decide, by rw [hc]; rfl⟩
  · rw [natToHex, if_neg h0, natToHexGo_eq_hexDigits n n [] le_rfl,
      List.append_nil] at hc
    exact mem_hexDigits n c hc

theorem natToHex_no_dash (n : Nat) : ∀ c ∈ natToHex n, ¬ c = '-' := by
  intro c hc
  obtain ⟨d, hd, rfl⟩ := mem_natToHex n c hc
  exact hexChar_ne_dash d hd

theorem splitDash_no_dash : ∀ (a : List Char), (∀ c ∈ a, ¬ c = '-') →
    splitDash a = [a] := by
  intro a
  induction a with
  | nil => simp [splitDash]
  | cons c rest ih =>
    intro h
    have hc : ¬ c = '-' := h c (List.mem_cons_self c rest)
    have hrest := ih fun x hx => h x (List.mem_cons_of_mem c hx)
    simp [splitDash, hc, hrest]

theorem splitDash_append : ∀ (a : List Char) (rest : List Char),
    (∀ c ∈ a, ¬ c = '-') →
    splitDash (a ++ '-' :: rest) = a :: splitDash rest := by
  intro a
  induction a with
  | nil => simp [splitDash]
  | cons c t ih =>
    intro rest h
    have hc : ¬ c = '-' := h c (List.mem_cons_self c t)
    have ht := ih rest fun x hx => h x (List.mem_cons_of_mem c hx)
    simp [splitDash, hc, ht]

theorem intercalate_dash_four (s0 s1 s2 s3 : List Char) :
    List.intercalate ['-'] [s0, s1, s2, s3] =
      s0 ++ '-' :: (s1 ++ '-' :: (s2 ++ '-' :: s3)) := by
  simp [List.intercalate, List.intersperse]

theorem toLeBytes_length : ∀ (k n : Nat), (toLeBytes n k).length = k := by
  intro k
  induction k with
  | zero => intro n; rfl
  | succ k ih => intro n; simp [toLeBytes, ih]

theorem toLeBytes_lt : ∀ (k n : Nat), ∀ b ∈ toLeBytes n k, b < 256 := by
  intro k
  induction k with
  | zero => intro n b hb; cases hb
  | succ k ih =>
    intro n b hb
    rcases List.mem_cons.mp hb with h1 | h2
    · subst h1
      exact Nat.mod_lt n (by decide)
    · exact ih (n / 256) b h2

theorem fromLeBytes_lt : ∀ (l : List Nat), (∀ b ∈ l, b < 256) →
    fromLeBytes l < 256 ^ l.length := by
  intro l
  induction l with
  | nil => intro _; simp [fromLeBytes]
  | cons b rest ih =>
    intro h
    have hb : b < 256 := h b (List.mem_cons_self b rest)
    have hr : fromLeBytes rest < 256 ^ rest.length :=
      ih fun x hx => h x (List.mem_cons_of_mem b hx)
    simp only [fromLeBytes, List.length_cons, pow_succ]
    calc b + 256 * fromLeBytes rest < 256 + 256 * fromLeBytes rest := by omega
      _ = 256 * (fromLeBytes rest + 1) := by ring
      _ ≤ 256 * 256 ^ rest.length := by
          exact Nat.mul_le_mul_left 256 hr
      _ = 256 ^ rest.length * 256 := by ring

theorem toLeBytes_fromLeBytes : ∀ (l : List Nat), (∀ b ∈ l, b < 256) →
    toLeBytes (fromLeBytes l) l.length = l := by
  intro l
  induction l with
  | nil => intro _; rfl
  | cons b rest ih =>
    intro h
    have hb : b < 256 := h b (List.mem_cons_self b rest)
    have hr := ih fun x hx => h x (List.mem_cons_of_mem b hx)
    simp only [fromLeBytes, List.length_cons, toLeBytes]
    have h1 : (b + 256 * fromLeBytes rest) % 256 = b := by omega
    have h2 : (b + 256 * fromLeBytes rest) / 256 = fromLeBytes rest := by omega
    rw [h1, h2, hr]

theorem fromLeBytes_toLeBytes : ∀ (k n : Nat),
    fromLeBytes (toLeBytes n k) = n % 256 ^ k := by
  intro k
  induction k with
  | zero => intro n; simp [toLeBytes, fromLeBytes, Nat.mod_one]
  | succ k ih =>
    intro n
    simp only [toLeBytes, fromLeBytes, ih]
    rw [pow_succ, mul_comm (256 ^ k) 256, Nat.mod_mul]

theorem exists_eight (x : List Nat) (hx : x.length = 8) :
    ∃ b0 b1 b2 b3 b4 b5 b6 b7, x = [b0, b1, b2, b3, b4, b5, b6, b7] := by
  match x with
  | [b0, b1, b2, b3, b4, b5, b6, b7] => exact ⟨b0, b1, b2, b3, b4, b5, b6, b7, rfl⟩
  | [] => simp at hx
  | [_] => simp at hx
  | [_, _] => simp at hx
  | [_, _, _] => simp at hx
  | [_, _, _, _] => simp at hx
  | [_, _, _, _, _] => simp at hx
  | [_, _, _, _, _, _] => simp at hx
  | [_, _, _, _, _, _, _] => simp at hx
  | _ :: _ :: _ :: _ :: _ :: _ :: _ :: _ :: _ :: _ =>
    simp [List.length_cons] at hx

theorem chunksExact8_cons (x y : List Nat) (hx : x.length = 8) :
    chunksExact8 (x ++ y) = x :: chunksExact8 y := by
  obtain ⟨b0, b1, b2, b3, b4, b5, b6, b7, rfl⟩ := exists_eight x hx
  rfl

/-- The shape every handle produced by decode has: bounded size, 31-byte
literal payloads with size within 5 bits, 23-byte canonical hashes, bounded
local ids, and all payload bytes below 256 (in Rust these bounds are carried
by the types u64, u8, and the fixed array lengths). -/
def ValidHandle (h : Handle) : Prop :=
  h.size < U64_BOUND ∧
  match h.content with
  | .Literal data => data.length = 31 ∧ (∀ b ∈ data, b < 256) ∧ h.size < 32
  | .Other _ (.Canonical hash) => hash.length = 23 ∧ ∀ b ∈ hash, b < 256
  | .Other _ (.Local id) => id < U64_BOUND

theorem lit_meta_bits : ∀ a, a < 4 → ∀ s, s < 32 →
    (((a <<< 6 ||| 32) ||| (s &&& 255)) &&& 32 ≠ 0) ∧
    (((a <<< 6 ||| 32) ||| (s &&& 255)) >>> 6 = a) ∧
    (((a <<< 6 ||| 32) ||| (s &&& 255)) &&& 31 = s) ∧
    (((a <<< 6 ||| 32) ||| (s &&& 255)) < 256) := by decide

theorem canon_meta_bits : ∀ a, a < 4 → ∀ o, o < 4 →
    ((((a <<< 6) ||| o) ||| 4) &&& 32 = 0) ∧
    ((((a <<< 6) ||| o) ||| 4) >>> 6 = a) ∧
    ((((a <<< 6) ||| o) ||| 4) &&& 4 ≠ 0) ∧
    ((((a <<< 6) ||| o) ||| 4) &&& 3 = o) ∧
    ((((a <<< 6) ||| o) ||| 4) < 256) := by decide

theorem local_meta_bits : ∀ a, a < 4 → ∀ o, o < 4 →
    (((a <<< 6) ||| o) &&& 32 = 0) ∧
    (((a <<< 6) ||| o) >>> 6 = a) ∧
    (((a <<< 6) ||| o) &&& 4 = 0) ∧
    (((a <<< 6) ||| o) &&& 3 = o) ∧
    (((a <<< 6) ||| o) < 256) := by decide

theorem accInto_lt (acc : Accessibility) : accessibilityInto acc < 4 := by
  cases acc <;> decide

theorem accTryFrom_into (acc : Accessibility) :
    accessibilityTryFrom (accessibilityInto acc) = some acc := by
  cases acc <;> rfl

theorem objInto_lt (o : Object) : objectInto o < 4 := by
  cases o <;> decide

theorem objTryFrom_into (o : Object) : objectTryFrom (objectInto o) = some o := by
  cases o <;> rfl

theorem accTryFrom_inv : ∀ {x : Nat} {acc : Accessibility},
    accessibilityTryFrom x = some acc → x = accessibilityInto acc := by
  intro x acc h
  match x, h with
  | 0, h => cases h; rfl
  | 1, h => cases h; rfl
  | 2, h => cases h; rfl

theorem objTryFrom_inv : ∀ {x : Nat} {o : Object},
    objectTryFrom x = some o → x = objectInto o := by
  intro x o h
  match x, h with
  | 0, h => cases h; rfl
  | 1, h => cases h; rfl
  | 2, h => cases h; rfl
  | 3, h => cases h; rfl

/-- The metadata byte of a prefix-plus-byte buffer of total length 32. -/
theorem getD31_concat (p : List Nat) (m : Nat) (hp : p.length = 31) :
    (p ++ [m]).getD 31 0 = m := by
  rw [List.getD_eq_getElem?_getD, List.getElem?_append_right (by omega)]
  simp [hp]

theorem slice_after (p1 p2 rest : List Nat) (n k : Nat) (h1 : p1.length = n)
    (h2 : p2.length = k) : ((p1 ++ (p2 ++ rest)).drop n).take k = p2 := by
  subst h1
  subst h2
  rw [List.drop_left, List.take_left]

theorem objectTryFrom_and3_isSome (m : Nat) :
    (objectTryFrom (m &&& 3)).isSome = true := by
  have h3 : m &&& 3 < 4 := lt_of_le_of_lt Nat.and_le_right (by decide)
  rcases hx : m &&& 3 with _ | _ | _ | _ | x
  · rfl
  · rfl
  · rfl
  · rfl
  · rw [hx] at h3; omega

/-- Every handle returned by decodeBuffer on a well-sized buffer is valid. -/
theorem decodeBuffer_valid {bytes : List Nat} {h : Handle}
    (hdec : decodeBuffer bytes = some h) (hlen : bytes.length = 32)
    (hbytes : ∀ b ∈ bytes, b < 256) : ValidHandle h := by
  simp only [decodeBuffer, HANDLE_LENGTH, LITERAL_CONTENT_LENGTH, METADATA_LENGTH,
    UINT64_LENGTH] at hdec
  have hsz : ∀ (k d : Nat), fromLeBytes ((bytes.drop d).take k) < 256 ^ k ∨
      ((bytes.drop d).take k).length < k := by
    intro k d
    by_cases hk : ((bytes.drop d).take k).length = k
    · left
      have := fromLeBytes_lt ((bytes.drop d).take k)
        (fun b hb => hbytes b (List.mem_of_mem_drop (List.mem_of_mem_take hb)))
      rwa [hk] at this
    · right
      have : ((bytes.drop d).take k).length ≤ k := by
        simp [List.length_take]
      omega
  split at hdec
  · cases hdec
  case h_2 acc hacc =>
    split at hdec
    · -- literal branch
      cases hdec
      refine ⟨?_, ?_, ?_, ?_⟩
      · exact lt_of_le_of_lt Nat.and_le_right (by decide)
      · simp [List.length_take, hlen]
      · intro b hb
        exact hbytes b (List.mem_of_mem_take hb)
      · exact lt_of_le_of_lt Nat.and_le_right (by decide)
    · split at hdec
      · cases hdec
      case h_2 obj hobj =>
        have hdlen : (bytes.drop 16).length = 16 := by simp [hlen]
        have hslen : ((bytes.drop 16).take 8).length = 8 := by simp [hdlen]
        have hsize : fromLeBytes ((bytes.drop 16).take 8) < U64_BOUND := by
          have := fromLeBytes_lt ((bytes.drop 16).take 8)
            (fun b hb => hbytes b (List.mem_of_mem_drop (List.mem_of_mem_take hb)))
          rw [hslen] at this
          have h256 : (256 : Nat) ^ 8 = 2 ^ 64 := by norm_num
          rw [h256] at this
          exact this
        split at hdec
        · -- canonical branch
          cases hdec
          refine ⟨hsize, ?_, ?_⟩
          · have hd24 : (bytes.drop 24).length = 8 := by simp [hlen]
            simp [List.length_take, hlen, hd24]
          · intro b hb
            rcases List.mem_append.mp hb with h1 | h2
            · exact hbytes b (List.mem_of_mem_take h1)
            · exact hbytes b (List.mem_of_mem_drop (List.mem_of_mem_take h2))
        · -- local branch
          cases hdec
          refine ⟨hsize, ?_⟩
          have htlen : (bytes.take 8).length = 8 := by simp [hlen]
          have := fromLeBytes_lt (bytes.take 8)
            (fun b hb => hbytes b (List.mem_of_mem_take hb))
          rw [htlen] at this
          have h256 : (256 : Nat) ^ 8 = 2 ^ 64 := by norm_num
          rwa [h256] at this

theorem toBuffer_literal (s : Nat) (acc : Accessibility) (data : List Nat) :
    Handle.to_buffer ⟨s, acc, .Literal data⟩ =
      data ++ [(accessibilityInto acc <<< 6 ||| 32) ||| (s &&& 255)] := rfl

theorem toBuffer_canonical (s : Nat) (acc : Accessibility) (ot : Object)
    (hash : List Nat) :
    Handle.to_buffer ⟨s, acc, .Other ot (.Canonical hash)⟩ =
      hash.take 16 ++ (toLeBytes s 8 ++ (hash.drop 16 ++
        [((accessibilityInto acc <<< 6) ||| objectInto ot) ||| 4])) := by
  simp [Handle.to_buffer, List.append_assoc, show UINT64_LENGTH * 2 = 16 from rfl]

theorem toBuffer_local (s : Nat) (acc : Accessibility) (ot : Object) (id : Nat) :
    Handle.to_buffer ⟨s, acc, .Other ot (.Local id)⟩ =
      toLeBytes id 8 ++ (List.replicate 8 0 ++ (toLeBytes s 8 ++
        (List.replicate 7 0 ++ [(accessibilityInto acc <<< 6) ||| objectInto ot]))) := by
  simp [Handle.to_buffer, List.append_assoc]

/-- The metadata byte of a three-part-plus-byte buffer (canonical layout). -/
theorem getD31_parts (p1 p2 p3 : List Nat) (m : Nat) (h1 : p1.length = 16)
    (h2 : p2.length = 8) (h3 : p3.length = 7) :
    (p1 ++ (p2 ++ (p3 ++ [m]))).getD 31 0 = m := by
  rw [List.getD_eq_getElem?_getD,
    List.getElem?_append_right (by omega),
    List.getElem?_append_right (by omega),
    List.getElem?_append_right (by omega)]
  simp [h1, h2, h3]

/-- The metadata byte of a four-part-plus-byte buffer (local layout). -/
theorem getD31_parts5 (p1 p2 p3 p4 : List Nat) (m : Nat) (h1 : p1.length = 8)
    (h2 : p2.length = 8) (h3 : p3.length = 8) (h4 : p4.length = 7) :
    (p1 ++ (p2 ++ (p3 ++ (p4 ++ [m])))).getD 31 0 = m := by
  rw [List.getD_eq_getElem?_getD,
    List.getElem?_append_right (by omega),
    List.getElem?_append_right (by omega),
    List.getElem?_append_right (by omega),
    List.getElem?_append_right (by omega)]
  simp [h1, h2, h3, h4]

theorem slice3 (p1 p2 p3 : List Nat) (rest : List Nat) (h1 : p1.length = 16)
    (h2 : p2.length = 8) (h3 : p3.length = 7) :
    ((p1 ++ (p2 ++ (p3 ++ rest))).drop 24).take 7 = p3 := by
  have hassoc : p1 ++ (p2 ++ (p3 ++ rest)) = (p1 ++ p2) ++ (p3 ++ rest) :=
    (List.append_assoc p1 p2 (p3 ++ rest)).symm
  rw [hassoc]
  exact slice_after (p1 ++ p2) p3 rest 24 7 (by simp [h1, h2]) h3

theorem slice_deep (p1 p2 p3 rest : List Nat) (h1 : p1.length = 8)
    (h2 : p2.length = 8) (h3 : p3.length = 8) :
    ((p1 ++ (p2 ++ (p3 ++ rest))).drop 16).take 8 = p3 := by
  have hassoc : p1 ++ (p2 ++ (p3 ++ rest)) = (p1 ++ p2) ++ (p3 ++ rest) :=
    (List.append_assoc p1 p2 (p3 ++ rest)).symm
  rw [hassoc]
  exact slice_after (p1 ++ p2) p3 rest 16 8 (by simp [h1, h2]) h3

theorem slice4 (p1 p2 p3 p4 rest : List Nat) (h1 : p1.length = 8)
    (h2 : p2.length = 8) (h3 : p3.length = 8) (h4 : p4.length = 7) :
    ((p1 ++ (p2 ++ (p3 ++ (p4 ++ rest)))).drop 24).take 7 = p4 := by
  have hassoc : p1 ++ (p2 ++ (p3 ++ (p4 ++ rest))) =
      ((p1 ++ p2) ++ p3) ++ (p4 ++ rest) := by
    simp [List.append_assoc]
  rw [hassoc]
  exact slice_after ((p1 ++ p2) ++ p3) p4 rest 24 7 (by simp [h1, h2, h3]) h4

/-- The packed buffer of a valid handle is 32 bytes, all below 256. -/
theorem toBuffer_spec (h : Handle) (hv : ValidHandle h) :
    (h.to_buffer).length = 32 ∧ ∀ b ∈ h.to_buffer, b < 256 := by
  obtain ⟨s, acc, c⟩ := h
  obtain ⟨hs64, hc⟩ := hv
  cases c with
  | Literal data =>
    obtain ⟨hlen, hbytes, hs32⟩ := hc
    obtain ⟨_, _, _, m4⟩ := lit_meta_bits (accessibilityInto acc) (accInto_lt acc) s hs32
    rw [toBuffer_literal]
    constructor
    · simp [hlen]
    · intro b hb
      rcases List.mem_append.mp hb with h1 | h2
      · exact hbytes b h1
      · simpa using (by simpa using h2 : b = _) ▸ m4
  | Other ot nl =>
    cases nl with
    | Canonical hash =>
      obtain ⟨hlen, hbytes⟩ := hc
      obtain ⟨_, _, _, _, m5⟩ := canon_meta_bits (accessibilityInto acc)
        (accInto_lt acc) (objectInto ot) (objInto_lt ot)
      rw [toBuffer_canonical]
      constructor
      · simp [hlen, toLeBytes_length]
      · intro b hb
        simp only [List.mem_append, List.mem_singleton] at hb
        rcases hb with (h1 | (h2 | (h3 | h4)))
        · exact hbytes b (List.mem_of_mem_take h1)
        · exact toLeBytes_lt 8 s b h2
        · exact hbytes b (List.mem_of_mem_drop h3)
        · rw [h4]; exact m5
    | Local id =>
      obtain ⟨_, _, _, _, m5⟩ := local_meta_bits (accessibilityInto acc)
        (accInto_lt acc) (objectInto ot) (objInto_lt ot)
      rw [toBuffer_local]
      constructor
      · simp [toLeBytes_length]
      · intro b hb
        simp only [List.mem_append, List.mem_singleton, List.mem_replicate] at hb
        rcases hb with (h1 | (h2 | (h3 | (h4 | h5))))
        · exact toLeBytes_lt 8 id b h1
        · omega
        · exact toLeBytes_lt 8 s b h3
        · omega
        · rw [h5]; exact m5

/-- Decoding the packed buffer of a valid handle recovers the handle. -/
theorem decodeBuffer_toBuffer (h : Handle) (hv : ValidHandle h) :
    decodeBuffer h.to_buffer = some h := by
  obtain ⟨s, acc, c⟩ := h
  obtain ⟨hs64, hc⟩ := hv
  cases c with
  | Literal data =>
    obtain ⟨hlen, hbytes, hs32⟩ := hc
    obtain ⟨m1, m2, m3, _⟩ := lit_meta_bits (accessibilityInto acc) (accInto_lt acc) s hs32
    unfold decodeBuffer
    simp only [show HANDLE_LENGTH - 1 = 31 from rfl,
      show LITERAL_CONTENT_LENGTH = 31 from rfl]
    rw [toBuffer_literal, getD31_concat data _ hlen, m2, accTryFrom_into]
    dsimp only
    rw [if_pos m1, m3, List.take_left' hlen]
  | Other ot nl =>
    cases nl with
    | Canonical hash =>
      obtain ⟨hlen, hbytes⟩ := hc
      obtain ⟨c1, c2, c3, c4, _⟩ := canon_meta_bits (accessibilityInto acc)
        (accInto_lt acc) (objectInto ot) (objInto_lt ot)
      have ht16 : (hash.take 16).length = 16 := by simp [hlen]
      have hd16 : (hash.drop 16).length = 7 := by simp [hlen]
      unfold decodeBuffer
      simp only [show HANDLE_LENGTH - 1 = 31 from rfl,
        show LITERAL_CONTENT_LENGTH = 31 from rfl,
        show UINT64_LENGTH * 2 = 16 from rfl,
        show UINT64_LENGTH * 3 = 24 from rfl,
        show UINT64_LENGTH - 1 = 7 from rfl,
        show UINT64_LENGTH = 8 from rfl]
      rw [toBuffer_canonical,
        getD31_parts (hash.take 16) (toLeBytes s 8) (hash.drop 16) _ ht16
          (toLeBytes_length 8 s) hd16,
        c2, accTryFrom_into]
      dsimp only
      rw [if_neg (by simp [c1]), c4, objTryFrom_into]
      dsimp only
      rw [if_pos c3]
      rw [slice_after (hash.take 16) (toLeBytes s 8) _ 16 8 ht16 (toLeBytes_length 8 s)]
      rw [slice3 (hash.take 16) (toLeBytes s 8) (hash.drop 16) _ ht16
        (toLeBytes_length 8 s) hd16]
      rw [List.take_left' ht16, List.take_append_drop, fromLeBytes_toLeBytes]
      rw [Nat.mod_eq_of_lt (by
        have h256 : (256 : Nat) ^ 8 = 2 ^ 64 := by norm_num
        rw [h256]
        exact hs64)]
    | Local id =>
      obtain ⟨hid⟩ := And.intro hc trivial
      obtain ⟨l1, l2, l3, l4, _⟩ := local_meta_bits (accessibilityInto acc)
        (accInto_lt acc) (objectInto ot) (objInto_lt ot)
      have hrep8 : (List.replicate 8 (0 : Nat)).length = 8 := by simp
      have hrep7 : (List.replicate 7 (0 : Nat)).length = 7 := by simp
      unfold decodeBuffer
      simp only [show HANDLE_LENGTH - 1 = 31 from rfl,
        show LITERAL_CONTENT_LENGTH = 31 from rfl,
        show UINT64_LENGTH * 2 = 16 from rfl,
        show UINT64_LENGTH * 3 = 24 from rfl,
        show UINT64_LENGTH - 1 = 7 from rfl,
        show UINT64_LENGTH = 8 from rfl]
      rw [toBuffer_local,
        getD31_parts5 (toLeBytes id 8) (List.replicate 8 0) (toLeBytes s 8)
          (List.replicate 7 0) _ (toLeBytes_length 8 id) hrep8
          (toLeBytes_length 8 s) hrep7,
        l2, accTryFrom_into]
      dsimp only
      rw [if_neg (by simp [l1]), l4, objTryFrom_into]
      dsimp only
      rw [if_neg (by simp [l3])]
      rw [slice_deep (toLeBytes id 8) (List.replicate 8 0) (toLeBytes s 8) _
        (toLeBytes_length 8 id) hrep8 (toLeBytes_length 8 s)]
      rw [List.take_left' (toLeBytes_length 8 id), fromLeBytes_toLeBytes,
        fromLeBytes_toLeBytes]
      have h256 : (256 : Nat) ^ 8 = 2 ^ 64 := by norm_num
      rw [Nat.mod_eq_of_lt (by rw [h256]; exact hs64),
        Nat.mod_eq_of_lt (by rw [h256]; exact hid)]

theorem assembleBytes_spec (f0 f1 f2 f3 : Nat) :
    (assembleBytes f0 f1 f2 f3).length = 32 ∧
      ∀ b ∈ assembleBytes f0 f1 f2 f3, b < 256 := by
  constructor
  · simp [assembleBytes, toLeBytes_length]
  · intro b hb
    simp only [assembleBytes, List.mem_append] at hb
    rcases hb with ((h1 | h2) | h3) | h4
    · exact toLeBytes_lt 8 f0 b h1
    · exact toLeBytes_lt 8 f1 b h2
    · exact toLeBytes_lt 8 f2 b h3
    · exact toLeBytes_lt 8 f3 b h4

theorem chunks32 (l : List Nat) (hl : l.length = 32) :
    l = l.take 8 ++ ((l.drop 8).take 8 ++ ((l.drop 16).take 8 ++ l.drop 24)) ∧
      chunksExact8 l =
        [l.take 8, (l.drop 8).take 8, (l.drop 16).take 8, l.drop 24] := by
  have h8 : (l.take 8).length = 8 := by simp [hl]
  have hd8 : ((l.drop 8).take 8).length = 8 := by simp [hl]
  have hd16 : ((l.drop 16).take 8).length = 8 := by simp [hl]
  have hd24 : (l.drop 24).length = 8 := by simp [hl]
  have hdd1 : (l.drop 8).drop 8 = l.drop 16 := by simp [List.drop_drop]
  have hdd2 : (l.drop 16).drop 8 = l.drop 24 := by simp [List.drop_drop]
  have s2 : l.drop 8 = (l.drop 8).take 8 ++ l.drop 16 := by
    conv_lhs => rw [← List.take_append_drop 8 (l.drop 8)]
    rw [hdd1]
  have s3 : l.drop 16 = (l.drop 16).take 8 ++ l.drop 24 := by
    conv_lhs => rw [← List.take_append_drop 8 (l.drop 16)]
    rw [hdd2]
  have hsplit : l = l.take 8 ++ ((l.drop 8).take 8 ++ ((l.drop 16).take 8 ++ l.drop 24)) := by
    conv_lhs => rw [← List.take_append_drop 8 l, s2, s3]
  refine ⟨hsplit, ?_⟩
  have hch4 : chunksExact8 (l.drop 24) = [l.drop 24] := by
    have h := chunksExact8_cons (l.drop 24) [] hd24
    simpa using h
  conv_lhs => rw [hsplit]
  rw [chunksExact8_cons _ _ h8, chunksExact8_cons _ _ hd8,
    chunksExact8_cons _ _ hd16, hch4]

/-- Encoding a valid handle and decoding the result recovers the handle. -/
theorem fromHexCore_toHexCore (h : Handle) (hv : ValidHandle h) :
    fromHexCore (toHexCore h) = some h := by
  obtain ⟨hlen, hbytes⟩ := toBuffer_spec h hv
  obtain ⟨hsplit, hchunks⟩ := chunks32 h.to_buffer hlen
  have h256 : (256 : Nat) ^ 8 = 2 ^ 64 := by norm_num
  have l0 : (h.to_buffer.take 8).length = 8 := by simp [hlen]
  have l1 : ((h.to_buffer.drop 8).take 8).length = 8 := by simp [hlen]
  have l2 : ((h.to_buffer.drop 16).take 8).length = 8 := by simp [hlen]
  have l3 : (h.to_buffer.drop 24).length = 8 := by simp [hlen]
  have b0 : ∀ b ∈ h.to_buffer.take 8, b < 256 :=
    fun b hb => hbytes b (List.mem_of_mem_take hb)
  have b1 : ∀ b ∈ (h.to_buffer.drop 8).take 8, b < 256 :=
    fun b hb => hbytes b (List.mem_of_mem_drop (List.mem_of_mem_take hb))
  have b2 : ∀ b ∈ (h.to_buffer.drop 16).take 8, b < 256 :=
    fun b hb => hbytes b (List.mem_of_mem_drop (List.mem_of_mem_take hb))
  have b3 : ∀ b ∈ h.to_buffer.drop 24, b < 256 :=
    fun b hb => hbytes b (List.mem_of_mem_drop hb)
  have w0lt : fromLeBytes (h.to_buffer.take 8) < U64_BOUND := by
    have := fromLeBytes_lt _ b0
    rw [l0, h256] at this
    exact this
  have w1lt : fromLeBytes ((h.to_buffer.drop 8).take 8) < U64_BOUND := by
    have := fromLeBytes_lt _ b1
    rw [l1, h256] at this
    exact this
  have w2lt : fromLeBytes ((h.to_buffer.drop 16).take 8) < U64_BOUND := by
    have := fromLeBytes_lt _ b2
    rw [l2, h256] at this
    exact this
  have w3lt : fromLeBytes (h.to_buffer.drop 24) < U64_BOUND := by
    have := fromLeBytes_lt _ b3
    rw [l3, h256] at this
    exact this
  have hhex : toHexCore h =
      natToHex (fromLeBytes (h.to_buffer.take 8)) ++ '-' ::
        (natToHex (fromLeBytes ((h.to_buffer.drop 8).take 8)) ++ '-' ::
          (natToHex (fromLeBytes ((h.to_buffer.drop 16).take 8)) ++ '-' ::
            natToHex (fromLeBytes (h.to_buffer.drop 24)))) := by
    unfold toHexCore
    rw [hchunks]
    simp only [List.map]
    exact intercalate_dash_four _ _ _ _
  have hassemble : assembleBytes (fromLeBytes (h.to_buffer.take 8))
      (fromLeBytes ((h.to_buffer.drop 8).take 8))
      (fromLeBytes ((h.to_buffer.drop 16).take 8))
      (fromLeBytes (h.to_buffer.drop 24)) = h.to_buffer := by
    unfold assembleBytes
    rw [show toLeBytes (fromLeBytes (h.to_buffer.take 8)) 8 = h.to_buffer.take 8 by
        have := toLeBytes_fromLeBytes _ b0; rwa [l0] at this,
      show toLeBytes (fromLeBytes ((h.to_buffer.drop 8).take 8)) 8 =
          (h.to_buffer.drop 8).take 8 by
        have := toLeBytes_fromLeBytes _ b1; rwa [l1] at this,
      show toLeBytes (fromLeBytes ((h.to_buffer.drop 16).take 8)) 8 =
          (h.to_buffer.drop 16).take 8 by
        have := toLeBytes_fromLeBytes _ b2; rwa [l2] at this,
      show toLeBytes (fromLeBytes (h.to_buffer.drop 24)) 8 = h.to_buffer.drop 24 by
        have := toLeBytes_fromLeBytes _ b3; rwa [l3] at this]
    conv_rhs => rw [hsplit]
    simp [List.append_assoc]
  rw [hhex]
  unfold fromHexCore
  rw [splitDash_append _ _ (natToHex_no_dash _),
    splitDash_append _ _ (natToHex_no_dash _),
    splitDash_append _ _ (natToHex_no_dash _),
    splitDash_no_dash _ (natToHex_no_dash _)]
  simp only [List.mapM, List.mapM.loop,
    fromStrRadix16_natToHex _ w0lt, fromStrRadix16_natToHex _ w1lt,
    fromStrRadix16_natToHex _ w2lt, fromStrRadix16_natToHex _ w3lt,
    Option.bind_some, Option.some_bind, List.reverse_cons, List.reverse_nil,
    List.nil_append, List.cons_append, Option.pure_def]
  simp [hassemble, decodeBuffer_toBuffer h hv]

/-- Every handle decode produces is valid. -/
theorem fromHexCore_valid {s : List Char} {h : Handle}
    (hs : fromHexCore s = some h) : ValidHandle h := by
  unfold fromHexCore at hs
  split at hs
  · cases hs
  case h_2 fields heq =>
    split at hs
    case h_1 f0 f1 f2 f3 =>
      obtain ⟨hlen, hbytes⟩ := assembleBytes_spec f0 f1 f2 f3
      exact decodeBuffer_valid hs hlen hbytes
    · cases hs

/-- The byte regions a decoded buffer must keep at zero for encode to return
the exact input: bits 3 and 4 of the metadata byte for non-literal handles,
and for Local handles also bytes 8..16 and bytes 24..31 (decode never reads
them and encode writes zeros there). Literal buffers have no ignored bytes. -/
def decodeIgnoredZero (bytes : List Nat) : Prop :=
  let m := bytes.getD (HANDLE_LENGTH - 1) 0
  m &&& 32 ≠ 0 ∨
    (m &&& 24 = 0 ∧ (m &&& 4 ≠ 0 ∨
      ((bytes.drop UINT64_LENGTH).take UINT64_LENGTH = List.replicate 8 0 ∧
       (bytes.drop (UINT64_LENGTH * 3)).take (UINT64_LENGTH - 1) =
         List.replicate 7 0)))

instance (bytes : List Nat) : Decidable (decodeIgnoredZero bytes) := by
  unfold decodeIgnoredZero
  infer_instance

set_option maxRecDepth 4000 in
theorem lit_recon : ∀ m, m < 256 → m &&& 32 ≠ 0 →
    ((m >>> 6 <<< 6 ||| 32) ||| ((m &&& 31) &&& 255)) = m := by decide

set_option maxRecDepth 4000 in
theorem canon_recon : ∀ m, m < 256 → m &&& 32 = 0 → m &&& 4 ≠ 0 → m &&& 24 = 0 →
    (((m >>> 6 <<< 6) ||| (m &&& 3)) ||| 4) = m := by decide

set_option maxRecDepth 4000 in
theorem local_recon : ∀ m, m < 256 → m &&& 32 = 0 → m &&& 4 = 0 → m &&& 24 = 0 →
    ((m >>> 6 <<< 6) ||| (m &&& 3)) = m := by decide

theorem split31 (l : List Nat) (hl : l.length = 32) :
    l = l.take 31 ++ [l.getD 31 0] := by
  have h31 : 31 < l.length := by omega
  have hd31 : l.drop 31 = [l.getD 31 0] := by
    rw [List.drop_eq_getElem_cons h31]
    have h32 : l.drop 32 = [] := by simp [hl]
    rw [show (31 : Nat) + 1 = 32 from rfl, h32, List.getD_eq_getElem l 0 h31]
  conv_lhs => rw [← List.take_append_drop 31 l, hd31]

theorem take31_parts (l : List Nat) (_hl : l.length = 32) :
    l.take 31 = l.take 16 ++ ((l.drop 16).take 8 ++ (l.drop 24).take 7) := by
  have hdd : (l.drop 16).drop 8 = l.drop 24 := by simp [List.drop_drop]
  have e1 : l.take 31 = l.take 16 ++ (l.drop 16).take 15 := by
    have h := List.take_add l 16 15
    norm_num at h
    exact h
  have e2 : (l.drop 16).take 15 = (l.drop 16).take 8 ++ (l.drop 24).take 7 := by
    have h := List.take_add (l.drop 16) 8 7
    norm_num at h
    exact h
  rw [e1, e2]

theorem take16_parts (l : List Nat) :
    l.take 16 = l.take 8 ++ (l.drop 8).take 8 := by
  have h := List.take_add l 8 8
  norm_num at h
  exact h

theorem split31_parts (l : List Nat) (hl : l.length = 32) :
    l = l.take 16 ++ ((l.drop 16).take 8 ++ ((l.drop 24).take 7 ++ [l.getD 31 0])) := by
  conv_lhs => rw [split31 l hl, take31_parts l hl]
  simp [List.append_assoc]

theorem split31_parts5 (l : List Nat) (hl : l.length = 32) :
    l = l.take 8 ++ ((l.drop 8).take 8 ++ ((l.drop 16).take 8 ++
      ((l.drop 24).take 7 ++ [l.getD 31 0]))) := by
  conv_lhs => rw [split31_parts l hl, take16_parts l]
  simp [List.append_assoc]

/-- Re-encoding a decoded buffer gives back the buffer, provided the regions
decode ignores are zero. -/
theorem toBuffer_decodeBuffer {bytes : List Nat} {h : Handle}
    (hdec : decodeBuffer bytes = some h) (hlen : bytes.length = 32)
    (hbytes : ∀ b ∈ bytes, b < 256) (hzero : decodeIgnoredZero bytes) :
    h.to_buffer = bytes := by
  have h31 : (31 : Nat) < bytes.length := by omega
  have hm : bytes.getD (HANDLE_LENGTH - 1) 0 < 256 := by
    rw [show HANDLE_LENGTH - 1 = 31 from rfl, List.getD_eq_getElem bytes 0 h31]
    exact hbytes _ (List.getElem_mem h31)
  simp only [decodeBuffer] at hdec
  simp only [decodeIgnoredZero] at hzero
  split at hdec
  · cases hdec
  case h_2 acc hacc =>
    have hainv := accTryFrom_inv hacc
    split at hdec
    case isTrue hlit =>
      cases hdec
      rw [toBuffer_literal]
      rw [← hainv, lit_recon _ hm hlit,
        show LITERAL_CONTENT_LENGTH = 31 from rfl]
      exact (split31 bytes hlen).symm
    case isFalse hlit =>
      have hlit0 : bytes.getD (HANDLE_LENGTH - 1) 0 &&& 32 = 0 := by
        by_contra hne
        exact hlit hne
      have hz2 := hzero.resolve_left (not_not_intro hlit0)
      obtain ⟨hz24, hzrest⟩ := hz2
      split at hdec
      · cases hdec
      case h_2 ot hobj =>
        have hoinv := objTryFrom_inv hobj
        have hwlen : ((bytes.drop (UINT64_LENGTH * 2)).take UINT64_LENGTH).length = 8 := by
          simp [hlen, show UINT64_LENGTH * 2 = 16 from rfl,
            show UINT64_LENGTH = 8 from rfl]
        have hwbytes : ∀ b ∈ (bytes.drop (UINT64_LENGTH * 2)).take UINT64_LENGTH,
            b < 256 :=
          fun b hb => hbytes b (List.mem_of_mem_drop (List.mem_of_mem_take hb))
        have hsz : toLeBytes
            (fromLeBytes ((bytes.drop (UINT64_LENGTH * 2)).take UINT64_LENGTH)) 8 =
            (bytes.drop (UINT64_LENGTH * 2)).take UINT64_LENGTH := by
          have := toLeBytes_fromLeBytes _ hwbytes
          rwa [hwlen] at this
        split at hdec
        case isTrue hcan =>
          cases hdec
          rw [toBuffer_canonical]
          have ht16 : (bytes.take (UINT64_LENGTH * 2)).length = 16 := by
            simp [hlen, show UINT64_LENGTH * 2 = 16 from rfl]
          rw [List.take_left' ht16, List.drop_left' ht16, hsz,
            ← hainv, ← hoinv, canon_recon _ hm hlit0 hcan hz24]
          rw [show UINT64_LENGTH * 2 = 16 from rfl,
            show UINT64_LENGTH * 3 = 24 from rfl,
            show UINT64_LENGTH - 1 = 7 from rfl,
            show UINT64_LENGTH = 8 from rfl]
          exact (split31_parts bytes hlen).symm
        case isFalse hcan =>
          cases hdec
          have hcan0 : bytes.getD (HANDLE_LENGTH - 1) 0 &&& 4 = 0 := by
            by_contra hne
            exact hcan hne
          obtain ⟨hzmid, hztail⟩ := hzrest.resolve_left (not_not_intro hcan0)
          rw [toBuffer_local]
          have ht8 : (bytes.take UINT64_LENGTH).length = 8 := by
            simp [hlen, show UINT64_LENGTH = 8 from rfl]
          have hid : toLeBytes (fromLeBytes (bytes.take UINT64_LENGTH)) 8 =
              bytes.take UINT64_LENGTH := by
            have := toLeBytes_fromLeBytes (bytes.take UINT64_LENGTH)
              (fun b hb => hbytes b (List.mem_of_mem_take hb))
            rwa [ht8] at this
          rw [hid, hsz, ← hainv, ← hoinv, local_recon _ hm hlit0 hcan0 hz24,
            ← hzmid, ← hztail]
          rw [show UINT64_LENGTH * 2 = 16 from rfl,
            show UINT64_LENGTH * 3 = 24 from rfl,
            show UINT64_LENGTH - 1 = 7 from rfl,
            show UINT64_LENGTH = 8 from rfl]
          exact (split31_parts5 bytes hlen).symm

theorem chunksExact8_assembleBytes (f0 f1 f2 f3 : Nat) :
    chunksExact8 (assembleBytes f0 f1 f2 f3) =
      [toLeBytes f0 8, toLeBytes f1 8, toLeBytes f2 8, toLeBytes f3 8] := by
  have hassoc : assembleBytes f0 f1 f2 f3 =
      toLeBytes f0 8 ++ (toLeBytes f1 8 ++ (toLeBytes f2 8 ++ toLeBytes f3 8)) := by
    simp [assembleBytes, List.append_assoc]
  rw [hassoc, chunksExact8_cons _ _ (toLeBytes_length 8 f0),
    chunksExact8_cons _ _ (toLeBytes_length 8 f1),
    chunksExact8_cons _ _ (toLeBytes_length 8 f2)]
  have h := chunksExact8_cons (toLeBytes f3 8) [] (toLeBytes_length 8 f3)
  simpa using h

theorem parseHexDigits_lt : ∀ (cs : List Char) (a : Nat), a < U64_BOUND →
    ∀ v, parseHexDigits cs a = some v → v < U64_BOUND := by
  intro cs
  induction cs with
  | nil =>
    intro a ha v hv
    simp [parseHexDigits] at hv
    omega
  | cons c cs ih =>
    intro a ha v hv
    simp only [parseHexDigits] at hv
    cases hd : hexDigitVal c with
    | none => simp [hd] at hv
    | some d =>
      simp only [hd] at hv
      by_cases hcond : a * 16 + d < U64_BOUND
      · rw [if_pos hcond] at hv
        exact ih _ hcond v hv
      · rw [if_neg hcond] at hv
        cases hv

theorem fromStrRadix16_lt {f : List Char} {v : Nat}
    (h : fromStrRadix16 f = some v) : v < U64_BOUND := by
  unfold fromStrRadix16 at h
  split at h
  · cases h
  · cases h
  · exact parseHexDigits_lt _ 0 (by decide) v h
  · exact parseHexDigits_lt _ 0 (by decide) v h

theorem mapM_loop_lt : ∀ (fs : List (List Char)) (acc vs : List Nat),
    List.mapM.loop fromStrRadix16 fs acc = some vs →
    (∀ v ∈ acc, v < U64_BOUND) → ∀ v ∈ vs, v < U64_BOUND := by
  intro fs
  induction fs with
  | nil =>
    intro acc vs h hacc v hvv
    simp [List.mapM.loop] at h
    subst h
    exact hacc v (List.mem_reverse.mp hvv)
  | cons f fs ih =>
    intro acc vs h hacc v hvv
    simp only [List.mapM.loop] at h
    cases hp : fromStrRadix16 f with
    | none => simp [hp] at h
    | some b =>
      simp only [hp, Option.some_bind] at h
      refine ih (b :: acc) vs ?_ ?_ v hvv
      · simpa using h
      · intro w hw
        rcases List.mem_cons.mp hw with h1 | h2
        · subst h1
          exact fromStrRadix16_lt hp
        · exact hacc w h2

theorem mapM_parse_lt {fs : List (List Char)} {vs : List Nat}
    (h : fs.mapM fromStrRadix16 = some vs) : ∀ v ∈ vs, v < U64_BOUND := by
  exact mapM_loop_lt fs [] vs h (by simp)

/-- C1 (amended): decoding then re-encoding returns the original handle for
every handle decode can produce; and encoding the handle decoded from a
well-formed string with canonical (lowercase, unpadded) hex fields returns
the string itself, provided additionally the byte regions decode ignores are
zero (bits 3-4 of the metadata byte for non-literal handles; for Local
handles also bytes 8..16 and 24..31). The added zero-region condition is
exactly what the counterexample shows to be necessary. -/
theorem C1_roundtrip_amended :
    (∀ (s : String) (h : Handle), Handle.from_hex s = some h →
        Handle.from_hex h.to_hex = some h) ∧
      ∀ (s : String) (h : Handle) (f0 f1 f2 f3 : Nat),
        (splitDash s.data).mapM fromStrRadix16 = some [f0, f1, f2, f3] →
        s.data = List.intercalate ['-']
          [natToHex f0, natToHex f1, natToHex f2, natToHex f3] →
        decodeIgnoredZero (assembleBytes f0 f1 f2 f3) →
        Handle.from_hex s = some h →
        h.to_hex = s := by
  constructor
  · intro s h hs
    have hv := fromHexCore_valid hs
    show fromHexCore (toHexCore h) = some h
    exact fromHexCore_toHexCore h hv
  · intro s h f0 f1 f2 f3 hmap hcanon hzero hdec
    have hdec2 : decodeBuffer (assembleBytes f0 f1 f2 f3) = some h := by
      unfold Handle.from_hex fromHexCore at hdec
      rw [hmap] at hdec
      exact hdec
    obtain ⟨hlen, hbytes⟩ := assembleBytes_spec f0 f1 f2 f3
    have hbuf := toBuffer_decodeBuffer hdec2 hlen hbytes hzero
    have hf0 : f0 < U64_BOUND := mapM_parse_lt hmap f0 (by simp)
    have hf1 : f1 < U64_BOUND := mapM_parse_lt hmap f1 (by simp)
    have hf2 : f2 < U64_BOUND := mapM_parse_lt hmap f2 (by simp)
    have hf3 : f3 < U64_BOUND := mapM_parse_lt hmap f3 (by simp)
    have h256 : (256 : Nat) ^ 8 = 2 ^ 64 := by norm_num
    cases s with
    | mk sdata =>
      show String.mk (toHexCore h) = String.mk sdata
      have hgoal : toHexCore h = sdata := by
        unfold toHexCore
        rw [hbuf, chunksExact8_assembleBytes]
        simp only [List.map, fromLeBytes_toLeBytes]
        rw [Nat.mod_eq_of_lt (by rw [h256]; exact hf0),
          Nat.mod_eq_of_lt (by rw [h256]; exact hf1),
          Nat.mod_eq_of_lt (by rw [h256]; exact hf2),
          Nat.mod_eq_of_lt (by rw [h256]; exact hf3)]
        exact hcanon.symm
      rw [hgoal]

/-- The handle of the concrete witness of the amended round trip. -/
def WH : Handle := ⟨4, .Strict, .Other .Thunk (.Local 217)⟩

/-- C1 amended witness: the local-handle scenario string satisfies all the
hypotheses of both halves, and both conclusions hold for it. -/
theorem C1_roundtrip_amended_witness :
    (Handle.from_hex "d9-0-4-100000000000000" = some WH ∧
        Handle.from_hex WH.to_hex = some WH) ∧
      WH.to_hex = "d9-0-4-100000000000000" := by
  have h1 : Handle.from_hex "d9-0-4-100000000000000" = some WH := by decide
  refine ⟨⟨h1, C1_roundtrip_amended.1 _ WH h1⟩, ?_⟩
  exact C1_roundtrip_amended.2 "d9-0-4-100000000000000" WH 0xd9 0 4
    0x100000000000000 (by decide) (by decide) (by decide) h1

/-! ## C4: decode rejection, amended -/

theorem exists_four {α : Type} (x : List α) (hx : x.length = 4) :
    ∃ a b c d, x = [a, b, c, d] := by
  match x with
  | [a, b, c, d] => exact ⟨a, b, c, d, rfl⟩
  | [] => simp at hx
  | [_] => simp at hx
  | [_, _] => simp at hx
  | [_, _, _] => simp at hx
  | _ :: _ :: _ :: _ :: _ :: _ => simp [List.length_cons] at hx

/-- Once the accessibility bits decode, the rest of decodeBuffer cannot fail:
every 2-bit object code is a valid Object. -/
theorem decodeBuffer_isSome {bytes : List Nat} {acc : Accessibility}
    (hacc : accessibilityTryFrom (bytes.getD (HANDLE_LENGTH - 1) 0 >>> 6) = some acc) :
    (decodeBuffer bytes).isSome = true := by
  simp only [decodeBuffer]
  rw [hacc]
  dsimp only
  split
  · rfl
  · cases hobj : objectTryFrom (bytes.getD (HANDLE_LENGTH - 1) 0 &&& 3) with
    | none =>
      have h := objectTryFrom_and3_isSome (bytes.getD (HANDLE_LENGTH - 1) 0)
      rw [hobj] at h
      cases h
    | some ot =>
      dsimp only
      split <;> rfl

/-- C4 (amended): from_hex fails exactly when some dash-separated field fails
u64 hex parsing (which rejects empty fields, characters that are not hex
digits other than one optional leading plus sign, and values of 2^64 or
more, but accepts uppercase digits and a leading plus), or the field count
is not 4, or the metadata accessibility bits equal 3; an out-of-range object
code cannot occur, the two object bits always decode. -/
theorem C4_rejection_amended (input : String) :
    Handle.from_hex input = none ↔
      ((splitDash input.data).mapM fromStrRadix16 = none ∨
        ∃ fields, (splitDash input.data).mapM fromStrRadix16 = some fields ∧
          (fields.length ≠ 4 ∨
            ∃ f0 f1 f2 f3, fields = [f0, f1, f2, f3] ∧
              accessibilityTryFrom
                ((assembleBytes f0 f1 f2 f3).getD (HANDLE_LENGTH - 1) 0 >>> 6) =
                none)) := by
  unfold Handle.from_hex fromHexCore
  cases hmap : (splitDash input.data).mapM fromStrRadix16 with
  | none => simp
  | some fields =>
    dsimp only
    split
    case h_1 f0 f1 f2 f3 =>
      constructor
      · intro hnone
        right
        refine ⟨[f0, f1, f2, f3], rfl, Or.inr ⟨f0, f1, f2, f3, rfl, ?_⟩⟩
        cases haccv : accessibilityTryFrom
            ((assembleBytes f0 f1 f2 f3).getD (HANDLE_LENGTH - 1) 0 >>> 6) with
        | none => rfl
        | some acc =>
          have hs := decodeBuffer_isSome haccv
          rw [hnone] at hs
          cases hs
      · rintro (h1 | ⟨fields', hf, h2 | ⟨g0, g1, g2, g3, hg, hacc⟩⟩)
        · cases h1
        · cases hf
          simp at h2
        · cases hf
          cases hg
          simp only [decodeBuffer]
          rw [hacc]
    case h_2 x hne =>
      constructor
      · intro _
        right
        refine ⟨fields, rfl, Or.inl ?_⟩
        intro hlen4
        obtain ⟨a, b, c, d, habcd⟩ := exists_four fields hlen4
        exact hne a b c d habcd
      · intro _
        rfl

/-! ## C9: handle_nearby_click (src/graph.rs revision)

The Graph of src/graph.rs owns an optional MainAncestor tree; Elements carry
their renderer-produced mesh bounding box (a rectangle the graph code treats
as data; Element::bounds asserts its center is the origin). Coordinates are
the source's f32 values embedded as exact rationals. -/

namespace GraphRs

inductive ElementContent where
  | handle (h : Handle)
  | task (t : Task')

/-- Element from src/plot.rs as consumed by the graph code: its content and
its mesh bounding box (min and max corners), which the renderer computed. -/
structure Element where
  content : ElementContent
  meshMin : ℚ × ℚ
  meshMax : ℚ × ℚ

def Element.get_handle (e : Element) : Handle :=
  match e.content with
  | .handle h => h
  | .task t => t.handle

/-- Element::bounds: asserts the mesh rect is centered at the origin (a
failed assertion panics, embedded as none), then scales by zoom and
translates by the center given in the draw parameters. -/
def Element.bounds (e : Element) (params : (ℚ × ℚ) × ℚ) :
    Option ((ℚ × ℚ) × (ℚ × ℚ)) :=
  let center := params.1
  let zoom := params.2
  if (e.meshMin.1 + e.meshMax.1) / 2 = 0 ∧ (e.meshMin.2 + e.meshMax.2) / 2 = 0 then
    some ((e.meshMin.1 * zoom + center.1, e.meshMin.2 * zoom + center.2),
      (e.meshMax.1 * zoom + center.1, e.meshMax.2 * zoom + center.2))
  else none

/-- An element and all of its ancestors (graph.rs revision: no back-edges). -/
inductive Ancestor where
  | mk (content : Element) (parents : List Ancestor)

def Ancestor.content : Ancestor → Element
  | .mk c _ => c

def Ancestor.parents : Ancestor → List Ancestor
  | .mk _ p => p

structure MainAncestor where
  inner : List Ancestor

/-- The prefix depth-first collection of elements used by iter. -/
def pushElements : List Ancestor → List Element
  | [] => []
  | .mk c ps :: rest => c :: (pushElements ps ++ pushElements rest)

def MainAncestor.iter (m : MainAncestor) : List Element :=
  pushElements m.inner

structure Graph where
  name : String
  main : Option MainAncestor

def Graph.iter (g : Graph) : List Element :=
  match g.main with
  | none => []
  | some m => m.iter

/-- Graph::get_graph_index: Some iff the flat index is within the ancestor
count. -/
def Graph.get_graph_index (g : Graph) (index : Nat) : Option Nat :=
  match g.main with
  | none => none
  | some m => if index < m.iter.length then some index else none

/-- get_location_rec with the Rust mutable index passed as state: returns
the reversed lineage when the countdown hits zero inside the tree. -/
def getLocationGo : List Ancestor → Nat → Nat → Option (List Nat) × Nat
  | [], _, index => (none, index)
  | .mk _ ps :: rest, i, index =>
    if index = 0 then (some [i], index)
    else
      match getLocationGo ps 0 (index - 1) with
      | (some l, index2) => (some (l ++ [i]), index2)
      | (none, index2) => getLocationGo rest (i + 1) index2

/-- The per-generation walk of the graph.rs get_draw_parameters (y advances
by the full scale here, with no Y_SCALE factor and a (0,0) start). -/
def drawWalkOld : List Ancestor → List Nat → ℚ × ℚ → ℚ → Option ((ℚ × ℚ) × ℚ)
  | _, [], pos, scale => some (pos, scale)
  | gen, i :: rest, pos, scale =>
    let scale2 := scale / (gen.length : ℚ)
    let pos2 := (pos.1 + scale2 * ((i : ℚ) - (gen.length : ℚ) * (1 / 2) + 1 / 2),
      pos.2 + scale2)
    match gen[i]? with
    | none => none
    | some a => drawWalkOld a.parents rest pos2 scale2

def MainAncestor.get_draw_parameters (m : MainAncestor) (index : Nat) :
    Option ((ℚ × ℚ) × ℚ) :=
  match (getLocationGo m.inner 0 index).1 with
  | none => none
  | some revLineage => drawWalkOld m.inner revLineage.reverse (0, 0) 1

def Graph.get_draw_parameters (g : Graph) (index : Nat) : Option ((ℚ × ℚ) × ℚ) :=
  match g.main with
  | none => none
  | some m => m.get_draw_parameters index

/-- Graph::handle_nearby_click: look the element up by its flat index (a
stale index only logs and returns), re-derive its bounding box, and when the
click point lies within it (the source compares with non-strict
inequalities on all four sides) invoke the request callback with the
element's handle. The outer none is a panic (failed unwrap or expect or
assertion); the inner option is the invoked callback's argument. -/
def Graph.handle_nearby_click (g : Graph) (coords : ℚ × ℚ) (closestIndex : Nat) :
    Option (Option Handle) :=
  match (g.iter)[closestIndex]? with
  | none => some none
  | some elem =>
    match g.get_graph_index closestIndex with
    | none => none
    | some gi =>
      match g.get_draw_parameters gi with
      | none => none
      | some params =>
        match elem.bounds params with
        | none => none
        | some (bmin, bmax) =>
          if bmin.1 ≤ coords.1 ∧ coords.1 ≤ bmax.1 ∧
              bmin.2 ≤ coords.2 ∧ coords.2 ≤ bmax.2 then
            some (some elem.get_handle)
          else some none

end GraphRs

/-- The single element of the concrete click scenario: the root handle with a
2-by-2 mesh box centered at the origin. -/
def gMesh : GraphRs.Element :=
  { content := .handle hR, meshMin := (-1, -1), meshMax := (1, 1) }

/-- A rooted graph with one element for the click scenario. -/
def G9 : GraphRs.Graph :=
  { name := "g", main := some ⟨[.mk gMesh []]⟩ }

/-- C9 counterexample: the root's re-derived bounding box is min (-1, 0),
max (1, 2), and clicking exactly on the boundary point (1, 1) (its x equals
the box's max x, so the point is not strictly inside) still invokes the
callback with the root handle, because the code tests the closed box; the
claim says a boundary point is a no-op. -/
theorem C9_counterexample :
    GraphRs.Element.bounds gMesh ((0, 1), 1) = some ((-1, 0), (1, 2)) ∧
      GraphRs.Graph.handle_nearby_click G9 (1, 1) 0 = some (some hR) := by
  constructor
  · simp [gMesh, GraphRs.Element.bounds]
    norm_num
  · simp [G9, gMesh, GraphRs.Graph.handle_nearby_click, GraphRs.Graph.iter,
      GraphRs.MainAncestor.iter, GraphRs.pushElements, GraphRs.Graph.get_graph_index,
      GraphRs.Graph.get_draw_parameters, GraphRs.MainAncestor.get_draw_parameters,
      GraphRs.getLocationGo, GraphRs.drawWalkOld, GraphRs.Element.bounds,
      GraphRs.Element.get_handle, GraphRs.Ancestor.parents]

/-- C9 (amended): when the clicked index resolves to an element whose draw
parameters and bounding box compute, handle_nearby_click invokes the
callback with the element's handle if and only if the point lies within the
CLOSED bounding box — boundary points included — rather than strictly
inside it as the claim stated. -/
theorem C9_click_amended (g : GraphRs.Graph) (i : Nat) (e : GraphRs.Element)
    (params : (ℚ × ℚ) × ℚ) (bmin bmax : ℚ × ℚ) (p : ℚ × ℚ)
    (he : (g.iter)[i]? = some e)
    (hp : g.get_draw_parameters i = some params)
    (hb : e.bounds params = some (bmin, bmax)) :
    g.handle_nearby_click p i = some (some e.get_handle) ↔
      (bmin.1 ≤ p.1 ∧ p.1 ≤ bmax.1 ∧ bmin.2 ≤ p.2 ∧ p.2 ≤ bmax.2) := by
  have hgi : g.get_graph_index i = some i := by
    unfold GraphRs.Graph.get_graph_index
    cases hm : g.main with
    | none =>
      exfalso
      unfold GraphRs.Graph.iter at he
      rw [hm] at he
      simp at he
    | some m =>
      have he2 := he
      unfold GraphRs.Graph.iter at he2
      rw [hm] at he2
      have hlt : i < m.iter.length := (List.getElem?_eq_some.mp he2).1
      simp [hlt]
  unfold GraphRs.Graph.handle_nearby_click
  rw [he]
  dsimp only
  rw [hgi]
  dsimp only
  rw [hp]
  dsimp only
  rw [hb]
  dsimp only
  split_ifs with hc
  · exact ⟨fun _ => hc, fun _ => rfl⟩
  · constructor
    · intro heq
      exfalso
      simp at heq
    · intro hcond
      exact absurd hcond hc

/-- C9 amended witness: clicking at (0, 1), which is inside the closed box
min (-1, 0), max (1, 2), invokes the callback with the element's handle. -/
theorem C9_click_amended_witness :
    ((GraphRs.Graph.iter G9)[0]? = some gMesh ∧
        GraphRs.Graph.get_draw_parameters G9 0 = some ((0, 1), 1) ∧
        GraphRs.Element.bounds gMesh ((0, 1), 1) = some ((-1, 0), (1, 2))) ∧
      (GraphRs.Graph.handle_nearby_click G9 (0, 1) 0 =
          some (some (GraphRs.Element.get_handle gMesh)) ↔
        ((-1 : ℚ) ≤ 0 ∧ (0 : ℚ) ≤ 1 ∧ (0 : ℚ) ≤ 1 ∧ (1 : ℚ) ≤ 2)) := by
  have he : (GraphRs.Graph.iter G9)[0]? = some gMesh := by
    simp [G9, GraphRs.Graph.iter, GraphRs.MainAncestor.iter, GraphRs.pushElements]
  have hp : GraphRs.Graph.get_draw_parameters G9 0 = some ((0, 1), 1) := by
    simp [G9, GraphRs.Graph.get_draw_parameters, GraphRs.MainAncestor.get_draw_parameters,
      GraphRs.getLocationGo, GraphRs.drawWalkOld, GraphRs.Ancestor.parents]
  have hb : GraphRs.Element.bounds gMesh ((0, 1), 1) = some ((-1, 0), (1, 2)) := by
    simp [gMesh, GraphRs.Element.bounds]
    norm_num
  exact ⟨⟨he, hp, hb⟩,
    C9_click_amended G9 0 gMesh ((0, 1), 1) (-1, 0) (1, 2) (0, 1) he hp hb⟩
